import Mathlib

/-!
Shallow embedding of the File-Organizer CLI (`src/main.py`) and proofs about
its specification claims.

Modelling conventions:
* A filesystem path is a list of name components (absolute, root = `[]`).
* The filesystem is a snapshot: an ordered list of (path, data) file entries
  (the order is the enumeration order that `iter_files` produces, which the
  Python code takes from `Path.iterdir`) plus a list of existing directories.
* File content is abstracted to a natural number; `md5sum` is modelled as a
  fingerprint that is injective on contents (byte-identical content gives the
  same digest, distinct content gives distinct digests), which is exactly the
  property the program relies on for duplicate detection.
* The run-log and report JSON files written by `save_json` are modelled as
  dedicated `FileData` constructors holding the decoded payload; `load_json`
  returns the default on any other file data, mirroring its `except` branch.
* Wall-clock readings (`time.time`, `datetime.now`) are passed in as abstract
  parameters; console printing is not modelled.
-/

namespace FileOrg

/-- A filesystem path: list of components, outermost first. -/
abbrev Path := List String

/-- Final component of a path (Python `Path.name`; "" for the root). -/
def pathName (p : Path) : String := p.getLast? |>.getD ""

/-- Parent path (Python `Path.parent` for our absolute component lists). -/
def parentDir (p : Path) : Path := p.dropLast

/-- Python `Path.with_name`: replace the final component. -/
def withName (p : Path) (n : String) : Path := p.dropLast ++ [n]

/-- ASCII lowercase of a string (Python `str.lower` restricted to ASCII,
which is all the extension table contains). -/
def strLower (s : String) : String := ⟨s.data.map Char.toLower⟩

/-- Index of the last '.' in a character list, if any. -/
def lastDotIdx (cs : List Char) : Option Nat :=
  match cs.reverse.findIdx? (fun c => c = '.') with
  | none => none
  | some j => some (cs.length - 1 - j)

/-- Python `PurePath` stem/suffix split of a file NAME: the suffix is
`name[i:]` for the last dot index `i` when `0 < i < len - 1`, else empty
(CPython's rule, so ".bashrc" and "file." have empty suffixes). -/
def splitStemSuffix (name : String) : String × String :=
  let cs := name.data
  match lastDotIdx cs with
  | some i =>
      if 0 < i ∧ i < cs.length - 1 then (⟨cs.take i⟩, ⟨cs.drop i⟩)
      else (name, "")
  | none => (name, "")

/-- Python `Path.suffix` of a file name. -/
def fileSuffix (name : String) : String := (splitStemSuffix name).2

/-- Python `Path.stem` of a file name. -/
def fileStem (name : String) : String := (splitStemSuffix name).1

/-- The static extension table `File_TYPES` from `src/main.py`, in its
insertion (iteration) order. -/
def File_TYPES : List (String × List String) :=
  [ ("images", [".jpg", ".jpeg", ".png", ".gif", ".bmp", ".tiff", ".webp", ".svg", ".heic"]),
    ("documents", [".pdf", ".doc", ".docx", ".txt", ".rtf", ".md", ".ppt", ".pptx", ".xls", ".xlsx", ".csv"]),
    ("videos", [".mp4", ".mkv", ".avi", ".mov", ".wmv", ".flv", ".webm"]),
    ("audio", [".mp3", ".wav", ".aac", ".flac", ".ogg", ".m4a"]),
    ("archives", [".zip", ".rar", ".7z", ".tar", ".gz", ".bz2"]),
    ("code", [".py", ".js", ".ts", ".tsx", ".jsx", ".java", ".c", ".cpp", ".cs", ".go", ".rb", ".php", ".html", ".css", ".json", ".sql", ".sh", ".bat"]),
    ("design", [".psd", ".ai", ".xd", ".fig", ".sketch"]) ]

def LOG_NAME : String := ".organizer_log.json"
def REPORT_NAME : String := ".organizer_report.json"
def DUP_DIR : String := "duplicates"

/-- `detect_category` from `src/main.py`: lower-case the suffix of the file's
final name component, return the first table category containing it, else
"others".  (Python passes a `Path`; `Path.suffix` depends only on the final
component, so the model takes the file name.) -/
def detect_category (name : String) : String :=
  let ext := strLower (fileSuffix name)
  match File_TYPES.find? (fun ce => ce.2.contains ext) with
  | some ce => ce.1
  | none => "others"

/-- The complete set of category labels the classifier can produce. -/
def allCategories : List String := File_TYPES.map Prod.fst ++ ["others"]

/-- One entry of the move log: `{"src": ..., "dst": ...}`. -/
structure Move where
  src : Path
  dst : Path
deriving DecidableEq, Repr

/-- The run report written to `.organizer_report.json`. -/
structure Report where
  target : Path
  summary : List (String × Nat)
  duplicates_moved : Nat
  moves_total : Nat
  by_date : Bool
  timestamp : String
  elapsed_seconds : Nat
deriving DecidableEq, Repr

/-- Data stored at a file path.  `bytes content year month` is an ordinary
file: `content` abstracts its byte string, `(year, month)` the timestamp pair
that `date_parts` would return for it (the model treats the creation/modified
timestamp as per-file metadata, preserved by renames as `shutil.move` on one
filesystem preserves mtime).  `logF` / `reportF` hold the decoded JSON payload
that `save_json` wrote. -/
inductive FileData where
  | bytes : Nat → String → String → FileData
  | logF : List Move → FileData
  | reportF : Report → FileData
deriving DecidableEq, Repr

/-- `md5sum` of a file, modelled as a fingerprint injective on `bytes`
content (the only property the program uses).  The JSON control files are
given fingerprints in a disjoint range. -/
def FileData.hashVal : FileData → Nat
  | .bytes c _ _ => c + 2
  | .logF _ => 0
  | .reportF _ => 1

/-- `date_parts` result for a file: its stored (year, month) metadata. -/
def FileData.ymOf : FileData → String × String
  | .bytes _ y m => (y, m)
  | .logF _ => ("1970", "01")
  | .reportF _ => ("1970", "01")

/-- A filesystem snapshot: file entries in enumeration order plus the set of
existing directories. -/
structure FS where
  files : List (Path × FileData)
  dirs : List Path
deriving DecidableEq, Repr

/-- Content of the file at `p`, if a file exists there. -/
def FS.fileAt (fs : FS) (p : Path) : Option FileData :=
  (fs.files.find? (fun e => e.1 = p)).map (·.2)

/-- Does a file exist at `p`? -/
def FS.isFile (fs : FS) (p : Path) : Bool :=
  fs.files.any (fun e => e.1 = p)

/-- Does a directory exist at `p`? -/
def FS.isDir (fs : FS) (p : Path) : Bool :=
  fs.dirs.any (fun d => d = p)

/-- Python `Path.exists`: true for files and directories alike. -/
def FS.pathExists (fs : FS) (p : Path) : Bool :=
  fs.isFile p || fs.isDir p

/-- Rename the file at `src` to `dst` (model of `shutil.move` when `dst` does
not exist): the entry keeps its list position and data. -/
def FS.renameFile (fs : FS) (src dst : Path) : FS :=
  { fs with files := fs.files.map (fun e => if e.1 = src then (dst, e.2) else e) }

/-- Write (create or overwrite) the file at `p` (model of `save_json`). -/
def FS.writeFile (fs : FS) (p : Path) (d : FileData) : FS :=
  if fs.isFile p then
    { fs with files := fs.files.map (fun e => if e.1 = p then (p, d) else e) }
  else
    { fs with files := fs.files ++ [(p, d)] }

/-- All prefixes of a path — the chain of directories that
`mkdir(parents=True, exist_ok=True)` guarantees to exist afterwards. -/
def mkdirChain (p : Path) : List Path := p.inits

/-- `Path.mkdir(parents=True, exist_ok=True)`: add every missing ancestor. -/
def FS.mkdirAll (fs : FS) (p : Path) : FS :=
  { fs with dirs := fs.dirs ++ (mkdirChain p).filter (fun d => ¬ fs.isDir d) }

/-- `ensure_dir` from `src/main.py`. -/
def ensure_dir (fs : FS) (p : Path) (dry : Bool) : FS :=
  if dry then fs else fs.mkdirAll p

/-- The `i`-th collision candidate `f"{stem} ({i}){suf}"` used by
`move_file`. -/
def collCand (dst : Path) (i : Nat) : Path :=
  withName dst ((fileStem (pathName dst)) ++ " (" ++ toString i ++ ")" ++ (fileSuffix (pathName dst)))

/-- The `while True` candidate search in `move_file`, with explicit fuel (the
real loop terminates because the filesystem is finite; the fuel passed in is
an upper bound on the number of occupied paths plus one). -/
def resolveLoop (fs : FS) (dst : Path) : Nat → Nat → Path
  | 0, i => collCand dst i
  | fuel + 1, i =>
      if fs.pathExists (collCand dst i) then resolveLoop fs dst fuel (i + 1)
      else collCand dst i

/-- Fuel that certainly outlasts the set of existing paths. -/
def FS.fuel (fs : FS) : Nat := fs.files.length + fs.dirs.length + 1

/-- Final destination `move_file` actually moves to: `dst` itself when free,
else the first free ` (N)` candidate. -/
def moveDest (fs : FS) (dst : Path) : Path :=
  if fs.pathExists dst then resolveLoop fs dst fs.fuel 1 else dst

/-- `move_file` from `src/main.py`: make the destination's parent directory,
stop there in dry-run, otherwise resolve a collision and move. -/
def move_file (fs : FS) (src dst : Path) (dry : Bool) : FS :=
  let fs1 := ensure_dir fs (parentDir dst) dry
  if dry then fs1
  else fs1.renameFile src (moveDest fs1 dst)

/-- `load_json(log_path, {"moves": []}).get("moves", [])` as `undo_last`
reads the log: the decoded move list for a log file, the default `[]` for a
missing file or any non-JSON-decodable data. -/
def FS.readLog (fs : FS) (p : Path) : List Move :=
  match fs.fileAt p with
  | some (.logF ms) => ms
  | _ => []

/-- Is `p` strictly under directory `t`? -/
def underDir (t p : Path) : Bool := t.isPrefixOf p && p ≠ t

/-- `iter_files` from `src/main.py`: the recursive `iterdir` walk yields
exactly the files strictly below `root`, in the snapshot's enumeration
order (it applies no filtering of its own). -/
def iter_files (fs : FS) (root : Path) : List Path :=
  (fs.files.filter (fun e => underDir root e.1)).map Prod.fst

/-- The in-memory state of `organize`'s per-file loop: the evolving
filesystem plus `seen_hashes`, `summary`, `duplicates` and `moves_log`. -/
structure OrgState where
  fs : FS
  seen : List (Nat × Path)
  summary : List (String × Nat)
  duplicates : List Move
  moves_log : List Move
deriving DecidableEq, Repr

/-- `summary[cat] = summary.get(cat, 0) + 1` on an insertion-ordered map. -/
def bump (s : List (String × Nat)) (k : String) : List (String × Nat) :=
  if s.any (fun e => e.1 = k) then
    s.map (fun e => if e.1 = k then (k, e.2 + 1) else e)
  else s ++ [(k, 1)]

/-- The `continue` guard at the top of `organize`'s loop:
`f.name in {LOG_NAME, REPORT_NAME} or f.parent == dup_dir or f.name == DUP_DIR`. -/
def skipFile (dup_dir : Path) (f : Path) : Bool :=
  decide (pathName f = LOG_NAME) || decide (pathName f = REPORT_NAME) ||
  decide (parentDir f = dup_dir) || decide (pathName f = DUP_DIR)

/-- The planner's destination for a non-duplicate file `f` with data `d`:
`target / cat [/ yyyy / mm] / f.name`. -/
def plannedDst (target : Path) (by_date : Bool) (f : Path) (d : FileData) : Path :=
  let cat := detect_category (pathName f)
  if by_date then target ++ [cat, d.ymOf.1, d.ymOf.2, pathName f]
  else target ++ [cat, pathName f]

/-- One iteration of `organize`'s `for f in files` loop body. -/
def processOne (target dup_dir : Path) (by_date dry : Bool) (st : OrgState) (f : Path) : OrgState :=
  if skipFile dup_dir f then st
  else
    match st.fs.fileAt f with
    | none => st
    | some d =>
      let h := d.hashVal
      if st.seen.any (fun e => e.1 = h) then
        let dst := dup_dir ++ [pathName f]
        { st with
          fs := move_file st.fs f dst dry,
          duplicates := st.duplicates ++ [⟨f, dst⟩],
          moves_log := if dry then st.moves_log else st.moves_log ++ [⟨f, dst⟩] }
      else
        let st2 : OrgState :=
          { st with seen := st.seen ++ [(h, f)],
                    summary := bump st.summary (detect_category (pathName f)) }
        let dst := plannedDst target by_date f d
        if f = dst then st2
        else
          { st2 with
            fs := move_file st2.fs f dst dry,
            moves_log := if dry then st2.moves_log else st2.moves_log ++ [⟨f, dst⟩] }

/-- What an `organize` invocation produces: the process exit code, the final
filesystem, and the run's accumulated lists. -/
structure OrgResult where
  exitCode : Nat
  fs : FS
  moves_log : List Move
  duplicates : List Move
  summary : List (String × Nat)
  total : Nat
deriving DecidableEq, Repr

/-- `organize` from `src/main.py`.  `timestamp` and `elapsed` stand for the
wall-clock readings taken during the run. -/
def organize (fs0 : FS) (target : Path) (by_date dry_run : Bool)
    (timestamp : String) (elapsed : Nat) : OrgResult :=
  if fs0.pathExists target && fs0.isDir target then
    let files := iter_files fs0 target
    if files.length = 0 then ⟨0, fs0, [], [], [], 0⟩
    else
      let dup_dir := target ++ [DUP_DIR]
      let fs1 := ensure_dir fs0 dup_dir dry_run
      let st := files.foldl (processOne target dup_dir by_date dry_run) ⟨fs1, [], [], [], []⟩
      if dry_run then ⟨0, st.fs, st.moves_log, st.duplicates, st.summary, files.length⟩
      else
        let fs2 := st.fs.writeFile (target ++ [LOG_NAME]) (.logF st.moves_log)
        let fs3 := fs2.writeFile (target ++ [REPORT_NAME])
          (.reportF ⟨target, st.summary, st.duplicates.length, st.moves_log.length,
                     by_date, timestamp, elapsed⟩)
        ⟨0, fs3, st.moves_log, st.duplicates, st.summary, files.length⟩
  else ⟨1, fs0, [], [], [], 0⟩

/-- The `i`-th undo-conflict candidate `f"{stem}.undo{'' if i == 1 else i}{suf}"`. -/
def undoCand (dst : Path) (i : Nat) : Path :=
  withName dst ((fileStem (pathName dst)) ++ ".undo" ++ (if i = 1 then "" else toString i)
                ++ (fileSuffix (pathName dst)))

/-- The undo-conflict `while True` search, with explicit fuel. -/
def undoLoop (fs : FS) (dst : Path) : Nat → Nat → Path
  | 0, i => undoCand dst i
  | fuel + 1, i =>
      if fs.pathExists (undoCand dst i) then undoLoop fs dst fuel (i + 1)
      else undoCand dst i

/-- Where `undo_last` actually restores a file to: the recorded source when
free, else the first free `.undo` candidate. -/
def undoDest (fs : FS) (dst : Path) : Path :=
  if fs.pathExists dst then undoLoop fs dst fs.fuel 1 else dst

/-- One iteration of `undo_last`'s loop over `reversed(moves)`. -/
def undoOne (dry : Bool) (acc : FS × Nat) (m : Move) : FS × Nat :=
  let src := m.dst
  let dst := m.src
  if acc.1.pathExists src then
    let fs1 := ensure_dir acc.1 (parentDir dst) dry
    if dry then (fs1, acc.2 + 1)
    else (fs1.renameFile src (undoDest fs1 dst), acc.2 + 1)
  else acc

/-- What an `undo` invocation produces.  `undo_last` contains no `sys.exit`,
so the process exit code is 0 on every path through it. -/
structure UndoResult where
  exitCode : Nat
  fs : FS
  reverted : Nat
deriving DecidableEq, Repr

/-- `undo_last` from `src/main.py`. -/
def undo_last (fs0 : FS) (target : Path) (dry_run : Bool) : UndoResult :=
  let log_path := target ++ [LOG_NAME]
  if fs0.pathExists log_path then
    let moves := fs0.readLog log_path
    if moves.isEmpty then ⟨0, fs0, 0⟩
    else
      let res := moves.reverse.foldl (undoOne dry_run) (fs0, 0)
      if dry_run then ⟨0, res.1, res.2⟩
      else ⟨0, (res.1.writeFile log_path (.logF [])), res.2⟩
  else ⟨0, fs0, 0⟩

/-! ## Basic filesystem lemmas -/

theorem find?_map_replace (l : List (Path × FileData)) (p : Path) (d : FileData)
    (h : l.any (fun e => e.1 = p) = true) :
    (l.map (fun e => if e.1 = p then (p, d) else e)).find? (fun e => e.1 = p)
      = some (p, d) := by
  induction l with
  | nil => simp at h
  | cons a l ih =>
    rw [List.map_cons]
    by_cases hp : a.1 = p
    · rw [if_pos hp]
      exact List.find?_cons_of_pos _ (by simp)
    · rw [if_neg hp, List.find?_cons_of_neg _ (by simpa using hp)]
      apply ih
      simp only [List.any_cons, Bool.or_eq_true, decide_eq_true_eq] at h
      rcases h with h | h
      · exact absurd h hp
      · exact h

theorem find?_map_replace_ne (l : List (Path × FileData)) (p q : Path) (d : FileData)
    (hq : q ≠ p) :
    (l.map (fun e => if e.1 = p then (p, d) else e)).find? (fun e => e.1 = q)
      = l.find? (fun e => e.1 = q) := by
  induction l with
  | nil => simp
  | cons a l ih =>
    rw [List.map_cons]
    by_cases hp : a.1 = p
    · have h1 : ¬ (p = q) := fun h => hq h.symm
      have h2 : ¬ (a.1 = q) := by rw [hp]; exact h1
      rw [if_pos hp, List.find?_cons_of_neg _ (by simpa using h1),
          List.find?_cons_of_neg _ (by simpa using h2)]
      exact ih
    · rw [if_neg hp]
      by_cases haq : a.1 = q
      · rw [List.find?_cons_of_pos _ (by simpa using haq),
            List.find?_cons_of_pos _ (by simpa using haq)]
      · rw [List.find?_cons_of_neg _ (by simpa using haq),
            List.find?_cons_of_neg _ (by simpa using haq)]
        exact ih

theorem FS.fileAt_writeFile_self (fs : FS) (p : Path) (d : FileData) :
    (fs.writeFile p d).fileAt p = some d := by
  unfold FS.writeFile FS.fileAt
  by_cases h : fs.isFile p = true
  · rw [if_pos h]
    unfold FS.isFile at h
    simp only
    rw [find?_map_replace _ _ _ h]
    rfl
  · rw [if_neg h]
    simp only
    rw [List.find?_append]
    have h2 : fs.files.find? (fun e => e.1 = p) = none := by
      rw [List.find?_eq_none]
      intro x hx
      simp only [decide_eq_true_eq]
      intro hxp
      exact h (by unfold FS.isFile; rw [List.any_eq_true]; exact ⟨x, hx, by simp [hxp]⟩)
    rw [h2]
    simp

theorem FS.fileAt_writeFile_ne (fs : FS) (p q : Path) (d : FileData) (hq : q ≠ p) :
    (fs.writeFile p d).fileAt q = fs.fileAt q := by
  unfold FS.writeFile FS.fileAt
  by_cases h : fs.isFile p = true
  · rw [if_pos h]
    simp only
    rw [find?_map_replace_ne _ _ _ _ hq]
  · rw [if_neg h]
    simp only
    rw [List.find?_append]
    cases hf : fs.files.find? (fun e => e.1 = q) with
    | some x => simp
    | none =>
      have hsingle : ([(p, d)] : List (Path × FileData)).find? (fun e => e.1 = q) = none := by
        rw [List.find?_eq_none]
        intro x hx
        simp only [List.mem_singleton] at hx
        subst hx
        simp only [decide_eq_true_eq]
        exact fun h => hq h.symm
      simp [hsingle]

theorem move_file_dry (fs : FS) (src dst : Path) : move_file fs src dst true = fs := rfl

theorem processOne_dry_fs (target dup_dir : Path) (by_date : Bool)
    (st : OrgState) (f : Path) :
    (processOne target dup_dir by_date true st f).fs = st.fs := by
  unfold processOne
  split
  · rfl
  · cases st.fs.fileAt f with
    | none => rfl
    | some d =>
      simp only
      split
      · rfl
      · split
        · rfl
        · rfl

theorem foldl_processOne_dry_fs (target dup_dir : Path) (by_date : Bool)
    (l : List Path) :
    ∀ st : OrgState, (l.foldl (processOne target dup_dir by_date true) st).fs = st.fs := by
  induction l with
  | nil => intro st; rfl
  | cons a l ih =>
    intro st
    rw [List.foldl_cons, ih, processOne_dry_fs]

/-! ## Concrete filesystems used as counterexample inputs -/

/-- Two files with distinct content but the same name "notes.txt", in two
different subdirectories of the target `t`. -/
def cexTwoFS : FS :=
  ⟨[ (["t", "a", "notes.txt"], .bytes 10 "2021" "03"),
     (["t", "b", "notes.txt"], .bytes 20 "2021" "06") ],
   [[], ["t"], ["t", "a"], ["t", "b"]]⟩

/-- The live organize run on `cexTwoFS`. -/
def cexTwoOrg : OrgResult := organize cexTwoFS ["t"] false false "ts" 0

/-- The live undo run following `cexTwoOrg`. -/
def cexTwoUndo : UndoResult := undo_last cexTwoOrg.fs ["t"] false

/-- Three files with identical content: `x.txt` is enumerated first, then
the pair `a.txt`, `b.txt`. -/
def cexTriFS : FS :=
  ⟨[ (["t", "x.txt"], .bytes 9 "2021" "01"),
     (["t", "a.txt"], .bytes 9 "2021" "02"),
     (["t", "b.txt"], .bytes 9 "2021" "03") ],
   [[], ["t"]]⟩

/-- The live organize run on `cexTriFS`. -/
def cexTriOrg : OrgResult := organize cexTriFS ["t"] false false "ts" 0

/-- A single file nested one level deep inside the `duplicates` subdirectory. -/
def cexNestedFS : FS :=
  ⟨[ (["t", "duplicates", "sub", "a.txt"], .bytes 3 "2021" "01") ],
   [[], ["t"], ["t", "duplicates"], ["t", "duplicates", "sub"]]⟩

/-- A valid target directory containing no files at all. -/
def cexEmptyFS : FS := ⟨[], [[], ["t"]]⟩

/-! ## C3 — classification -/

/-- C3 counterexample: the claim says `classify` returns "exactly one of the
nine defined category labels"; the defined label set (the seven table
categories plus "others") has exactly eight distinct elements, not nine. -/
theorem allCategories_has_eight_labels :
    allCategories.Nodup ∧ allCategories.length = 8 ∧ ¬ allCategories.length = 9 := by
  decide

/-- C3 (amended): classification is total into the eight-label set
{images, documents, videos, audio, archives, code, design, others}; it
depends only on the lower-cased extension (hence matches case-insensitively);
and any extension outside the static table (including the empty one) yields
"others". -/
theorem detect_category_eq (name : String) :
    detect_category name =
      match File_TYPES.find? (fun ce => ce.2.contains (strLower (fileSuffix name))) with
      | some ce => ce.1
      | none => "others" := rfl

theorem detect_category_mem (name : String) :
    detect_category name ∈ allCategories := by
  rw [detect_category_eq]
  cases hf : File_TYPES.find? (fun ce => ce.2.contains (strLower (fileSuffix name))) with
  | none => simp [allCategories]
  | some ce =>
    simp only [allCategories]
    exact List.mem_append_left _ (List.mem_map_of_mem _ (List.mem_of_find?_eq_some hf))

theorem detect_category_ne_dup (name : String) : detect_category name ≠ DUP_DIR := by
  intro h
  have h2 := detect_category_mem name
  rw [h] at h2
  exact absurd h2 (by decide)

theorem detect_category_total (name : String) :
    detect_category name ∈ allCategories ∧
    (∀ n2 : String, strLower (fileSuffix name) = strLower (fileSuffix n2) →
        detect_category name = detect_category n2) ∧
    ((∀ ce ∈ File_TYPES, strLower (fileSuffix name) ∉ ce.2) →
        detect_category name = "others") := by
  refine ⟨detect_category_mem name, ?_, ?_⟩
  · intro n2 h
    rw [detect_category_eq, detect_category_eq, h]
  · intro h
    rw [detect_category_eq]
    have hf : File_TYPES.find? (fun ce => ce.2.contains (strLower (fileSuffix name))) = none := by
      rw [List.find?_eq_none]
      intro ce hce
      intro hc
      exact h ce hce (List.elem_iff.mp hc)
    rw [hf]

/-- C3 witness: a concrete extension outside the table classifies as
"others", and ".JPG" classifies the same as ".jpg". -/
theorem detect_category_total_witness :
    detect_category "notes.xyz" = "others" ∧
    detect_category "PHOTO.JPG" = detect_category "photo.jpg" := by
  refine ⟨(detect_category_total "notes.xyz").2.2 (by decide),
          (detect_category_total "PHOTO.JPG").2.1 "photo.jpg" (by decide)⟩

/-! ## C5 — exit behavior -/

/-- C5 counterexample: on a missing target directory, the `undo` subcommand
exits 0 (it treats the absent log as "nothing to undo"), while the claim
requires a non-zero exit for both subcommands. -/
theorem undo_missing_target_exits_zero :
    FS.pathExists ⟨[], []⟩ ["t"] = false ∧
    (undo_last ⟨[], []⟩ ["t"] false).exitCode = 0 := by
  decide

/-- C5 (amended): `organize` exits 1 on an invalid/missing target directory
and 0 otherwise, while `undo` exits 0 in every case, even when its target
directory is invalid or missing. -/
theorem exit_code_behavior (fs0 : FS) (target : Path) (b d : Bool)
    (ts : String) (el : Nat) :
    ((fs0.pathExists target && fs0.isDir target) = false →
        (organize fs0 target b d ts el).exitCode = 1) ∧
    ((fs0.pathExists target && fs0.isDir target) = true →
        (organize fs0 target b d ts el).exitCode = 0) ∧
    (undo_last fs0 target d).exitCode = 0 := by
  refine ⟨?_, ?_, ?_⟩
  · intro h
    simp only [organize, h, Bool.false_eq_true, if_false]
  · intro h
    simp only [organize, h, if_true]
    split
    · rfl
    · split
      · rfl
      · rfl
  · simp only [undo_last]
    split
    · split
      · rfl
      · split
        · rfl
        · rfl
    · rfl

/-- C5 witness: concrete instances of all three exit-code facts. -/
theorem exit_code_behavior_witness :
    (organize ⟨[], []⟩ ["t"] false false "ts" 0).exitCode = 1 ∧
    (organize cexEmptyFS ["t"] false false "ts" 0).exitCode = 0 ∧
    (undo_last ⟨[], []⟩ ["t"] false).exitCode = 0 :=
  ⟨(exit_code_behavior ⟨[], []⟩ ["t"] false false "ts" 0).1 (by decide),
   (exit_code_behavior cexEmptyFS ["t"] false false "ts" 0).2.1 (by decide),
   (exit_code_behavior ⟨[], []⟩ ["t"] false false "ts" 0).2.2⟩

/-! ## C8 — dry-run is a no-op -/

/-- C8: a dry-run organize performs no filesystem mutation at all — the
resulting filesystem (files, directories, log, report) is the input
filesystem — and a subsequent live run on it is literally the run that would
have happened without the dry-run. -/
theorem organize_dry_run_no_op (fs0 : FS) (target : Path) (by_date : Bool)
    (ts ts2 : String) (el el2 : Nat) :
    (organize fs0 target by_date true ts el).fs = fs0 ∧
    organize (organize fs0 target by_date true ts el).fs target by_date false ts2 el2
      = organize fs0 target by_date false ts2 el2 := by
  have h1 : (organize fs0 target by_date true ts el).fs = fs0 := by
    simp only [organize, if_true]
    split
    · split
      · rfl
      · simp only
        rw [foldl_processOne_dry_fs]
        rfl
    · rfl
  exact ⟨h1, by rw [h1]⟩

/-! ## C1 — counterexample to "undo inverts organize" -/

/-- C1 counterexample: `cexTwoFS` holds two files with pairwise-distinct
content (first conjunct), yet after a live organize followed by a live undo
the file originally at `t/a/notes.txt` is NOT restored — no file resides at
its original path (collision renaming during organize is not logged, so undo
restores the wrong file).  The log does end empty, but restoration fails, so
the conjunction claimed by C1 is false. -/
theorem organize_undo_not_inverse :
    (∀ e ∈ cexTwoFS.files, ∀ e2 ∈ cexTwoFS.files, e.2.hashVal = e2.2.hashVal → e = e2) ∧
    cexTwoUndo.fs.fileAt ["t", "a", "notes.txt"] = none := by
  decide

/-! ## C4 — enumeration/exclusion boundary -/

/-- C4 counterexample: a file nested one level below the `duplicates`
subdirectory is NOT excluded: the run hashes and classifies it and moves it
into the category tree. -/
theorem nested_duplicates_file_processed :
    (organize cexNestedFS ["t"] false false "ts" 0).fs.fileAt
        ["t", "duplicates", "sub", "a.txt"] = none ∧
    (organize cexNestedFS ["t"] false false "ts" 0).fs.fileAt
        ["t", "documents", "a.txt"] = some (.bytes 3 "2021" "01") := by
  decide

/-- C4 (amended): the loop skips exactly the files named like the run log,
the report, or the duplicates directory, and the files whose immediate
parent is the duplicates directory; every other enumerated, readable file is
processed (the state changes), including files nested deeper inside the
duplicates subdirectory. -/
theorem organize_exclusion_boundary (target dup_dir : Path) (by_date dry : Bool)
    (st : OrgState) (f : Path) :
    (skipFile dup_dir f = true ↔
       (pathName f = LOG_NAME ∨ pathName f = REPORT_NAME ∨
        parentDir f = dup_dir ∨ pathName f = DUP_DIR)) ∧
    (skipFile dup_dir f = true → processOne target dup_dir by_date dry st f = st) ∧
    (skipFile dup_dir f = false → ∀ d, st.fs.fileAt f = some d →
        processOne target dup_dir by_date dry st f ≠ st) := by
  refine ⟨?_, ?_, ?_⟩
  · simp [skipFile, or_assoc]
  · intro h
    simp only [processOne, h, if_true]
  · intro h d hd heq
    simp only [processOne, h, Bool.false_eq_true, if_false, hd] at heq
    by_cases hdup : st.seen.any (fun e => e.1 = d.hashVal) = true
    · rw [if_pos hdup] at heq
      have hdups := congrArg OrgState.duplicates heq
      simp at hdups
    · rw [if_neg hdup] at heq
      split at heq
      · have hseen := congrArg OrgState.seen heq
        simp at hseen
      · have hseen := congrArg OrgState.seen heq
        simp at hseen

/-- C4 witness: a direct child of `duplicates/` is skipped unchanged, while
a file nested deeper is processed (the state changes). -/
theorem organize_exclusion_boundary_witness :
    processOne ["t"] ["t", "duplicates"] false false
        ⟨cexNestedFS, [], [], [], []⟩ ["t", "duplicates", "x.txt"]
      = ⟨cexNestedFS, [], [], [], []⟩ ∧
    processOne ["t"] ["t", "duplicates"] false false
        ⟨cexNestedFS, [], [], [], []⟩ ["t", "duplicates", "sub", "a.txt"]
      ≠ ⟨cexNestedFS, [], [], [], []⟩ :=
  ⟨(organize_exclusion_boundary ["t"] ["t", "duplicates"] false false
      ⟨cexNestedFS, [], [], [], []⟩ ["t", "duplicates", "x.txt"]).2.1 (by decide),
   (organize_exclusion_boundary ["t"] ["t", "duplicates"] false false
      ⟨cexNestedFS, [], [], [], []⟩ ["t", "duplicates", "sub", "a.txt"]).2.2 (by decide)
      (.bytes 3 "2021" "01") (by decide)⟩

/-! ## C6 — counterexample to the pairwise duplicate claim -/

/-- C6 counterexample: in `cexTriFS` the pair (`a.txt`, `b.txt`) has
byte-identical content and distinct names, yet NEITHER lands in the category
tree: because `x.txt` (enumerated earlier) has the same content, both pair
members are moved to `duplicates/`. -/
theorem duplicate_pair_both_in_duplicates :
    cexTriOrg.fs.fileAt ["t", "duplicates", "a.txt"] = some (.bytes 9 "2021" "02") ∧
    cexTriOrg.fs.fileAt ["t", "duplicates", "b.txt"] = some (.bytes 9 "2021" "03") ∧
    cexTriOrg.fs.fileAt ["t", "documents", "a.txt"] = none := by
  decide

/-! ## C10 — log/report persistence -/

/-- C10 counterexample: on a valid target directory containing zero files,
a live organize returns early and persists nothing — the filesystem is left
exactly as it was, with no log file and no report file. -/
theorem organize_zero_files_persists_nothing :
    (cexEmptyFS.pathExists ["t"] && cexEmptyFS.isDir ["t"]) = true ∧
    (organize cexEmptyFS ["t"] false false "ts" 0).fs = cexEmptyFS ∧
    (organize cexEmptyFS ["t"] false false "ts" 0).fs.fileAt ["t", LOG_NAME] = none := by
  decide

theorem log_path_ne_report_path (target : Path) :
    target ++ [LOG_NAME] ≠ target ++ [REPORT_NAME] := by
  intro h
  have h2 := List.append_cancel_left h
  have h3 : LOG_NAME = REPORT_NAME := by simpa using h2
  exact absurd h3 (by decide)

/-- C10 (amended): a live organize on a valid target that enumerates at
least one file persists the move-record log and the run report (category
counts, duplicate count, total moves, elapsed time, timestamp) into the
target directory. -/
theorem organize_persists_log_and_report (fs0 : FS) (target : Path) (b : Bool)
    (ts : String) (el : Nat)
    (hv : (fs0.pathExists target && fs0.isDir target) = true)
    (hne : ¬ (iter_files fs0 target).length = 0) :
    (organize fs0 target b false ts el).fs.fileAt (target ++ [LOG_NAME])
        = some (.logF (organize fs0 target b false ts el).moves_log) ∧
    (organize fs0 target b false ts el).fs.fileAt (target ++ [REPORT_NAME])
        = some (.reportF ⟨target, (organize fs0 target b false ts el).summary,
                          (organize fs0 target b false ts el).duplicates.length,
                          (organize fs0 target b false ts el).moves_log.length,
                          b, ts, el⟩) := by
  simp only [organize, hv, if_true, if_neg hne, Bool.false_eq_true, if_false]
  constructor
  · rw [FS.fileAt_writeFile_ne _ _ _ _ (log_path_ne_report_path target),
        FS.fileAt_writeFile_self]
  · rw [FS.fileAt_writeFile_self]

/-- C10 witness: the spec's example tree persists its log and report. -/
theorem organize_persists_log_and_report_witness :
    (organize cexTriFS ["t"] false false "ts" 0).fs.fileAt ["t", LOG_NAME]
        = some (.logF (organize cexTriFS ["t"] false false "ts" 0).moves_log) ∧
    (organize cexTriFS ["t"] false false "ts" 0).fs.fileAt ["t", REPORT_NAME]
        = some (.reportF ⟨["t"], (organize cexTriFS ["t"] false false "ts" 0).summary,
                          (organize cexTriFS ["t"] false false "ts" 0).duplicates.length,
                          (organize cexTriFS ["t"] false false "ts" 0).moves_log.length,
                          false, "ts", 0⟩) :=
  organize_persists_log_and_report cexTriFS ["t"] false "ts" 0 (by decide) (by decide)

/-! ## C2 — the log records the planner's destination, not the renamed one -/

/-- C2: every move record appended to the log carries the planner-computed
destination — `dup_dir/name` for a duplicate, `target/category[/y/m]/name`
otherwise — independently of the collision renaming done inside `move_file`;
concretely, in the `cexTwoFS` run the second log record's `dst` is
`t/documents/notes.txt` while that file actually resides at
`t/documents/notes (1).txt`. -/
theorem log_dst_is_planner_dst (target dup_dir : Path) (by_date : Bool)
    (st : OrgState) (f : Path) (d : FileData)
    (hskip : skipFile dup_dir f = false) (hd : st.fs.fileAt f = some d) :
    (st.seen.any (fun e => e.1 = d.hashVal) = true →
        (processOne target dup_dir by_date false st f).moves_log
          = st.moves_log ++ [⟨f, dup_dir ++ [pathName f]⟩]) ∧
    (st.seen.any (fun e => e.1 = d.hashVal) = false →
        ¬ f = plannedDst target by_date f d →
        (processOne target dup_dir by_date false st f).moves_log
          = st.moves_log ++ [⟨f, plannedDst target by_date f d⟩]) ∧
    cexTwoOrg.moves_log
      = [⟨["t", "a", "notes.txt"], ["t", "documents", "notes.txt"]⟩,
         ⟨["t", "b", "notes.txt"], ["t", "documents", "notes.txt"]⟩] ∧
    cexTwoOrg.fs.fileAt ["t", "documents", "notes (1).txt"]
      = some (.bytes 20 "2021" "06") ∧
    cexTwoOrg.fs.fileAt ["t", "documents", "notes.txt"]
      = some (.bytes 10 "2021" "03") := by
  refine ⟨?_, ?_, by decide, by decide, by decide⟩
  · intro hdup
    simp only [processOne, hskip, Bool.false_eq_true, if_false, hd, hdup, if_true]
  · intro hdup hne
    simp only [processOne, hskip, Bool.false_eq_true, if_false, hd, hdup, if_neg hne]

/-- C2 witness: concrete instances of both logging equations. -/
theorem log_dst_is_planner_dst_witness :
    (processOne ["t"] ["t", "duplicates"] false false
        ⟨cexTwoFS, [(12, ["t", "x"])], [], [], []⟩ ["t", "a", "notes.txt"]).moves_log
      = [⟨["t", "a", "notes.txt"], ["t", "duplicates", "notes.txt"]⟩] ∧
    (processOne ["t"] ["t", "duplicates"] false false
        ⟨cexTwoFS, [], [], [], []⟩ ["t", "a", "notes.txt"]).moves_log
      = [⟨["t", "a", "notes.txt"], ["t", "documents", "notes.txt"]⟩] :=
  ⟨(log_dst_is_planner_dst ["t"] ["t", "duplicates"] false
      ⟨cexTwoFS, [(12, ["t", "x"])], [], [], []⟩ ["t", "a", "notes.txt"]
      (.bytes 10 "2021" "03") (by decide) (by decide)).1 (by decide),
   (log_dst_is_planner_dst ["t"] ["t", "duplicates"] false
      ⟨cexTwoFS, [], [], [], []⟩ ["t", "a", "notes.txt"]
      (.bytes 10 "2021" "03") (by decide) (by decide)).2.1 (by decide) (by decide)⟩

/-! ## C7 — already-in-place files are untouched -/

/-- C7: when a processed file's first-seen hash and computed destination
equal its current path (the situation of every category-tree file on an
immediate re-run), the loop leaves the filesystem untouched and appends no
move record, so such files contribute zero to the run's moved count. -/
theorem in_place_file_not_moved (target dup_dir : Path) (by_date dry : Bool)
    (st : OrgState) (f : Path) (d : FileData)
    (hskip : skipFile dup_dir f = false)
    (hd : st.fs.fileAt f = some d)
    (hseen : st.seen.any (fun e => e.1 = d.hashVal) = false)
    (hdst : plannedDst target by_date f d = f) :
    (processOne target dup_dir by_date dry st f).fs = st.fs ∧
    (processOne target dup_dir by_date dry st f).moves_log = st.moves_log := by
  simp only [processOne, hskip, Bool.false_eq_true, if_false, hd, hseen, hdst, if_pos rfl]
  exact ⟨rfl, rfl⟩

/-- C7 witness: a file already at `t/documents/n.txt` is left in place and
unlogged. -/
theorem in_place_file_not_moved_witness :
    (processOne ["t"] ["t", "duplicates"] false false
        ⟨⟨[(["t", "documents", "n.txt"], .bytes 4 "2021" "01")], [[], ["t"]]⟩,
         [], [], [], []⟩ ["t", "documents", "n.txt"]).fs
      = ⟨[(["t", "documents", "n.txt"], .bytes 4 "2021" "01")], [[], ["t"]]⟩ ∧
    (processOne ["t"] ["t", "duplicates"] false false
        ⟨⟨[(["t", "documents", "n.txt"], .bytes 4 "2021" "01")], [[], ["t"]]⟩,
         [], [], [], []⟩ ["t", "documents", "n.txt"]).moves_log = [] :=
  in_place_file_not_moved ["t"] ["t", "duplicates"] false false
    ⟨⟨[(["t", "documents", "n.txt"], .bytes 4 "2021" "01")], [[], ["t"]]⟩, [], [], [], []⟩
    ["t", "documents", "n.txt"] (.bytes 4 "2021" "01")
    (by decide) (by decide) (by decide) (by decide)

/-! ## Lemmas about directory creation and renaming -/

theorem mem_mkdirChain_length_le {d p : Path} (h : d ∈ mkdirChain p) :
    d.length ≤ p.length :=
  ((List.mem_inits d p).mp h).length_le

theorem FS.isFile_mkdirAll (fs : FS) (p q : Path) :
    (fs.mkdirAll p).isFile q = fs.isFile q := rfl

theorem FS.fileAt_mkdirAll (fs : FS) (p q : Path) :
    (fs.mkdirAll p).fileAt q = fs.fileAt q := rfl

theorem FS.fuel_mkdirAll_le (fs : FS) (p : Path) :
    fs.fuel ≤ (fs.mkdirAll p).fuel := by
  unfold FS.fuel FS.mkdirAll
  simp only [List.length_append]
  omega

theorem FS.isDir_mkdirAll_iff (fs : FS) (p q : Path) :
    (fs.mkdirAll p).isDir q = true ↔ (fs.isDir q = true ∨ q ∈ mkdirChain p) := by
  unfold FS.mkdirAll FS.isDir
  simp only [List.any_eq_true, decide_eq_true_eq, List.mem_append, List.mem_filter]
  constructor
  · rintro ⟨x, hx | ⟨hx, _⟩, rfl⟩
    · exact Or.inl ⟨x, hx, rfl⟩
    · exact Or.inr hx
  · rintro (⟨x, hx, rfl⟩ | hq)
    · exact ⟨x, Or.inl hx, rfl⟩
    · by_cases hd : fs.dirs.any (fun d => d = q) = true
      · simp only [List.any_eq_true, decide_eq_true_eq] at hd
        obtain ⟨x, hx, rfl⟩ := hd
        exact ⟨x, Or.inl hx, rfl⟩
      · exact ⟨q, Or.inr ⟨hq, by simpa using hd⟩, rfl⟩

theorem FS.pathExists_mkdirAll_longer (fs : FS) (p q : Path) (h : p.length < q.length) :
    (fs.mkdirAll p).pathExists q = fs.pathExists q := by
  have hdir : (fs.mkdirAll p).isDir q = fs.isDir q := by
    by_cases hd : fs.isDir q = true
    · rw [hd, (fs.isDir_mkdirAll_iff p q).mpr (Or.inl hd)]
    · have h2 : ¬ (fs.mkdirAll p).isDir q = true := by
        intro hh
        rcases (fs.isDir_mkdirAll_iff p q).mp hh with h3 | h3
        · exact hd h3
        · exact absurd (mem_mkdirChain_length_le h3) (by omega)
      rw [Bool.not_eq_true] at hd h2
      rw [hd, h2]
  unfold FS.pathExists
  rw [FS.isFile_mkdirAll, hdir]

theorem FS.pathExists_mkdirAll_mono (fs : FS) (p q : Path)
    (h : fs.pathExists q = true) : (fs.mkdirAll p).pathExists q = true := by
  unfold FS.pathExists at h ⊢
  rw [FS.isFile_mkdirAll]
  rcases Bool.or_eq_true_iff.mp h with h2 | h2
  · rw [h2]; rfl
  · rw [(fs.isDir_mkdirAll_iff p q).mpr (Or.inl h2)]
    simp

theorem find?_map_rename_ne (l : List (Path × FileData)) (src dst q : Path)
    (h1 : q ≠ src) (h2 : q ≠ dst) :
    (l.map (fun e => if e.1 = src then (dst, e.2) else e)).find? (fun e => e.1 = q)
      = l.find? (fun e => e.1 = q) := by
  induction l with
  | nil => simp
  | cons a l ih =>
    rw [List.map_cons]
    by_cases hs : a.1 = src
    · have ha : ¬ (a.1 = q) := by rw [hs]; exact fun h => h1 h.symm
      rw [if_pos hs, List.find?_cons_of_neg _ (by simpa using fun h => h2 h.symm),
          List.find?_cons_of_neg _ (by simpa using ha)]
      exact ih
    · rw [if_neg hs]
      by_cases ha : a.1 = q
      · rw [List.find?_cons_of_pos _ (by simpa using ha),
            List.find?_cons_of_pos _ (by simpa using ha)]
      · rw [List.find?_cons_of_neg _ (by simpa using ha),
            List.find?_cons_of_neg _ (by simpa using ha)]
        exact ih

theorem FS.fileAt_renameFile_ne (fs : FS) (src dst q : Path)
    (h1 : q ≠ src) (h2 : q ≠ dst) :
    (fs.renameFile src dst).fileAt q = fs.fileAt q := by
  unfold FS.renameFile FS.fileAt
  rw [find?_map_rename_ne _ _ _ _ h1 h2]

theorem find?_map_rename_dst (l : List (Path × FileData)) (src dst : Path)
    (hfree : ∀ e ∈ l, e.1 ≠ dst) :
    (l.map (fun e => if e.1 = src then (dst, e.2) else e)).find? (fun e => e.1 = dst)
      = (l.find? (fun e => e.1 = src)).map (fun e => (dst, e.2)) := by
  induction l with
  | nil => simp
  | cons a l ih =>
    rw [List.map_cons]
    by_cases hs : a.1 = src
    · rw [if_pos hs, List.find?_cons_of_pos _ (by simp),
          List.find?_cons_of_pos _ (by simpa using hs)]
      rfl
    · rw [if_neg hs, List.find?_cons_of_neg _ (by simpa using hfree a (by simp)),
          List.find?_cons_of_neg _ (by simpa using hs)]
      exact ih (fun e he => hfree e (List.mem_cons_of_mem a he))

theorem FS.fileAt_renameFile_dst (fs : FS) (src dst : Path)
    (hfree : fs.isFile dst = false) :
    (fs.renameFile src dst).fileAt dst = fs.fileAt src := by
  unfold FS.renameFile FS.fileAt
  rw [find?_map_rename_dst]
  · cases fs.files.find? (fun e => e.1 = src) <;> rfl
  · intro e he heq
    unfold FS.isFile at hfree
    rw [List.any_eq_false] at hfree
    exact hfree e he (by simpa using heq)

/-! ## The collision-candidate loops -/

theorem resolveLoop_spec (fs : FS) (dst : Path) :
    ∀ (fuel i j : Nat), i ≤ j → j < i + fuel →
      fs.pathExists (collCand dst j) = false →
      ∃ k, i ≤ k ∧ fs.pathExists (collCand dst k) = false ∧
        (∀ m, i ≤ m → m < k → fs.pathExists (collCand dst m) = true) ∧
        resolveLoop fs dst fuel i = collCand dst k := by
  intro fuel
  induction fuel with
  | zero =>
    intro i j hij hj hfree
    omega
  | succ n ih =>
    intro i j hij hj hfree
    rw [resolveLoop]
    by_cases hc : fs.pathExists (collCand dst i) = true
    · rw [if_pos hc]
      have hji : i ≠ j := by
        intro h
        rw [h, hfree] at hc
        cases hc
      obtain ⟨k, hk1, hk2, hk3, hk4⟩ := ih (i + 1) j (by omega) (by omega) hfree
      refine ⟨k, by omega, hk2, ?_, hk4⟩
      intro m hm1 hm2
      by_cases hmi : m = i
      · rw [hmi]; exact hc
      · exact hk3 m (by omega) hm2
    · rw [if_neg hc]
      refine ⟨i, le_refl i, Bool.not_eq_true _ ▸ hc, ?_, rfl⟩
      intro m hm1 hm2
      omega

theorem undoLoop_spec (fs : FS) (dst : Path) :
    ∀ (fuel i j : Nat), i ≤ j → j < i + fuel →
      fs.pathExists (undoCand dst j) = false →
      ∃ k, i ≤ k ∧ fs.pathExists (undoCand dst k) = false ∧
        (∀ m, i ≤ m → m < k → fs.pathExists (undoCand dst m) = true) ∧
        undoLoop fs dst fuel i = undoCand dst k := by
  intro fuel
  induction fuel with
  | zero =>
    intro i j hij hj hfree
    omega
  | succ n ih =>
    intro i j hij hj hfree
    rw [undoLoop]
    by_cases hc : fs.pathExists (undoCand dst i) = true
    · rw [if_pos hc]
      have hji : i ≠ j := by
        intro h
        rw [h, hfree] at hc
        cases hc
      obtain ⟨k, hk1, hk2, hk3, hk4⟩ := ih (i + 1) j (by omega) (by omega) hfree
      refine ⟨k, by omega, hk2, ?_, hk4⟩
      intro m hm1 hm2
      by_cases hmi : m = i
      · rw [hmi]; exact hc
      · exact hk3 m (by omega) hm2
    · rw [if_neg hc]
      refine ⟨i, le_refl i, Bool.not_eq_true _ ▸ hc, ?_, rfl⟩
      intro m hm1 hm2
      omega

theorem length_withName (p : Path) (n : String) :
    (withName p n).length = p.dropLast.length + 1 := by
  unfold withName
  rw [List.length_append]
  rfl

theorem pathExists_mkdirParent_cand (fs : FS) (dst q : Path)
    (hq : q.length = dst.dropLast.length + 1) :
    (fs.mkdirAll (parentDir dst)).pathExists q = fs.pathExists q := by
  apply FS.pathExists_mkdirAll_longer
  unfold parentDir
  omega

/-! ## C9 — collision-safe naming -/

/-- C9: a live move onto an occupied destination renames the moved file to
`stem (N)suffix` with N the least index (from 1) whose candidate is unused,
overwriting no existing file; the analogous conflict during undo restores to
`stem.undoSUFFIX`, `stem.undo2SUFFIX`, ... (the suffix kept at the end),
likewise taking the least free index and overwriting nothing. -/
theorem collision_safe_naming :
    (∀ (fs : FS) (src dst : Path) (j : Nat),
       fs.pathExists dst = true → 1 ≤ j → j < 1 + fs.fuel →
       fs.pathExists (collCand dst j) = false →
       ∃ k, 1 ≤ k ∧ fs.pathExists (collCand dst k) = false ∧
         (∀ m, 1 ≤ m → m < k → fs.pathExists (collCand dst m) = true) ∧
         collCand dst k = withName dst (fileStem (pathName dst) ++ " (" ++ toString k ++ ")"
             ++ fileSuffix (pathName dst)) ∧
         move_file fs src dst false
           = (fs.mkdirAll (parentDir dst)).renameFile src (collCand dst k) ∧
         (∀ q, fs.isFile q = true → q ≠ src →
             (move_file fs src dst false).fileAt q = fs.fileAt q)) ∧
    (∀ (fs : FS) (n : Nat) (m : Move) (j : Nat),
       fs.pathExists m.dst = true → fs.pathExists m.src = true → 1 ≤ j → j < 1 + fs.fuel →
       fs.pathExists (undoCand m.src j) = false →
       ∃ k, 1 ≤ k ∧ fs.pathExists (undoCand m.src k) = false ∧
         (∀ i, 1 ≤ i → i < k → fs.pathExists (undoCand m.src i) = true) ∧
         undoCand m.src k = withName m.src (fileStem (pathName m.src) ++ ".undo"
             ++ (if k = 1 then "" else toString k) ++ fileSuffix (pathName m.src)) ∧
         undoOne false (fs, n) m
           = ((fs.mkdirAll (parentDir m.src)).renameFile m.dst (undoCand m.src k), n + 1) ∧
         (∀ q, fs.isFile q = true → q ≠ m.dst →
             (undoOne false (fs, n) m).1.fileAt q = fs.fileAt q)) := by
  constructor
  · intro fs src dst j hdst hj1 hj2 hjfree
    have hcandlen : ∀ m : Nat, (collCand dst m).length = dst.dropLast.length + 1 := by
      intro m
      unfold collCand
      rw [length_withName]
    have htrans : ∀ m : Nat,
        (fs.mkdirAll (parentDir dst)).pathExists (collCand dst m)
          = fs.pathExists (collCand dst m) := by
      intro m
      exact pathExists_mkdirParent_cand fs dst _ (hcandlen m)
    have hfuel := fs.fuel_mkdirAll_le (parentDir dst)
    obtain ⟨k, hk1, hk2, hk3, hk4⟩ :=
      resolveLoop_spec (fs.mkdirAll (parentDir dst)) dst (fs.mkdirAll (parentDir dst)).fuel
        1 j hj1 (by omega) (by rw [htrans]; exact hjfree)
    have hmd : moveDest (fs.mkdirAll (parentDir dst)) dst = collCand dst k := by
      unfold moveDest
      rw [if_pos (fs.pathExists_mkdirAll_mono (parentDir dst) dst hdst)]
      exact hk4
    refine ⟨k, hk1, by rw [← htrans]; exact hk2, ?_, rfl, ?_, ?_⟩
    · intro m hm1 hm2
      rw [← htrans]
      exact hk3 m hm1 hm2
    · show move_file fs src dst false = _
      unfold move_file ensure_dir
      simp only [Bool.false_eq_true, if_false]
      rw [hmd]
    · intro q hq hqsrc
      have hqcand : q ≠ collCand dst k := by
        intro h
        have hk2f : fs.pathExists (collCand dst k) = false := by
          rw [← htrans]; exact hk2
        unfold FS.pathExists at hk2f
        rcases Bool.or_eq_false_iff.mp hk2f with ⟨hf, _⟩
        rw [h] at hq
        rw [hq] at hf
        cases hf
      unfold move_file ensure_dir
      simp only [Bool.false_eq_true, if_false]
      rw [hmd, FS.fileAt_renameFile_ne _ _ _ _ hqsrc hqcand, FS.fileAt_mkdirAll]
  · intro fs n m j hsrc hdstEx hj1 hj2 hjfree
    have hcandlen : ∀ i : Nat, (undoCand m.src i).length = m.src.dropLast.length + 1 := by
      intro i
      unfold undoCand
      rw [length_withName]
    have htrans : ∀ i : Nat,
        (fs.mkdirAll (parentDir m.src)).pathExists (undoCand m.src i)
          = fs.pathExists (undoCand m.src i) := by
      intro i
      exact pathExists_mkdirParent_cand fs m.src _ (hcandlen i)
    have hfuel := fs.fuel_mkdirAll_le (parentDir m.src)
    obtain ⟨k, hk1, hk2, hk3, hk4⟩ :=
      undoLoop_spec (fs.mkdirAll (parentDir m.src)) m.src
        (fs.mkdirAll (parentDir m.src)).fuel 1 j hj1 (by omega)
        (by rw [htrans]; exact hjfree)
    have hud : undoDest (fs.mkdirAll (parentDir m.src)) m.src = undoCand m.src k := by
      unfold undoDest
      rw [if_pos (fs.pathExists_mkdirAll_mono _ _ hdstEx)]
      exact hk4
    refine ⟨k, hk1, by rw [← htrans]; exact hk2, ?_, rfl, ?_, ?_⟩
    · intro i hi1 hi2
      rw [← htrans]
      exact hk3 i hi1 hi2
    · show undoOne false (fs, n) m = _
      unfold undoOne ensure_dir
      simp only [hsrc, if_true, Bool.false_eq_true, if_false]
      rw [hud]
    · intro q hq hqsrc
      have hqcand : q ≠ undoCand m.src k := by
        intro h
        have hk2f : fs.pathExists (undoCand m.src k) = false := by
          rw [← htrans]; exact hk2
        unfold FS.pathExists at hk2f
        rcases Bool.or_eq_false_iff.mp hk2f with ⟨hf, _⟩
        rw [h] at hq
        rw [hq] at hf
        cases hf
      unfold undoOne ensure_dir
      simp only [hsrc, if_true, Bool.false_eq_true, if_false]
      rw [hud, FS.fileAt_renameFile_ne _ _ _ _ hqsrc hqcand, FS.fileAt_mkdirAll]

/-- A filesystem where a move destination and an undo restore target are
both already occupied. -/
def cexCollFS : FS :=
  ⟨[ (["t", "docs", "n.txt"], .bytes 1 "2021" "01"),
     (["t", "x", "n.txt"], .bytes 2 "2021" "02") ],
   [[], ["t"], ["t", "docs"], ["t", "x"]]⟩

/-- C9 witness: both halves of the collision theorem at a concrete
filesystem with an occupied destination. -/
theorem collision_safe_naming_witness :
    (∃ k, 1 ≤ k ∧ cexCollFS.pathExists (collCand ["t", "docs", "n.txt"] k) = false ∧
       (∀ m, 1 ≤ m → m < k →
           cexCollFS.pathExists (collCand ["t", "docs", "n.txt"] m) = true) ∧
       collCand ["t", "docs", "n.txt"] k
         = withName ["t", "docs", "n.txt"] (fileStem (pathName ["t", "docs", "n.txt"])
             ++ " (" ++ toString k ++ ")" ++ fileSuffix (pathName ["t", "docs", "n.txt"])) ∧
       move_file cexCollFS ["t", "x", "n.txt"] ["t", "docs", "n.txt"] false
         = (cexCollFS.mkdirAll (parentDir ["t", "docs", "n.txt"])).renameFile
             ["t", "x", "n.txt"] (collCand ["t", "docs", "n.txt"] k) ∧
       (∀ q, cexCollFS.isFile q = true → q ≠ ["t", "x", "n.txt"] →
           (move_file cexCollFS ["t", "x", "n.txt"] ["t", "docs", "n.txt"] false).fileAt q
             = cexCollFS.fileAt q)) ∧
    (∃ k, 1 ≤ k ∧
       cexCollFS.pathExists (undoCand (Move.mk ["t", "x", "n.txt"] ["t", "docs", "n.txt"]).src k)
         = false ∧
       (∀ i, 1 ≤ i → i < k →
           cexCollFS.pathExists
             (undoCand (Move.mk ["t", "x", "n.txt"] ["t", "docs", "n.txt"]).src i) = true) ∧
       undoCand (Move.mk ["t", "x", "n.txt"] ["t", "docs", "n.txt"]).src k
         = withName (Move.mk ["t", "x", "n.txt"] ["t", "docs", "n.txt"]).src
             (fileStem (pathName (Move.mk ["t", "x", "n.txt"] ["t", "docs", "n.txt"]).src)
               ++ ".undo" ++ (if k = 1 then "" else toString k)
               ++ fileSuffix (pathName (Move.mk ["t", "x", "n.txt"] ["t", "docs", "n.txt"]).src)) ∧
       undoOne false (cexCollFS, 0) (Move.mk ["t", "x", "n.txt"] ["t", "docs", "n.txt"])
         = ((cexCollFS.mkdirAll
               (parentDir (Move.mk ["t", "x", "n.txt"] ["t", "docs", "n.txt"]).src)).renameFile
             (Move.mk ["t", "x", "n.txt"] ["t", "docs", "n.txt"]).dst
             (undoCand (Move.mk ["t", "x", "n.txt"] ["t", "docs", "n.txt"]).src k), 0 + 1) ∧
       (∀ q, cexCollFS.isFile q = true →
           q ≠ (Move.mk ["t", "x", "n.txt"] ["t", "docs", "n.txt"]).dst →
           (undoOne false (cexCollFS, 0)
               (Move.mk ["t", "x", "n.txt"] ["t", "docs", "n.txt"])).1.fileAt q
             = cexCollFS.fileAt q)) :=
  ⟨collision_safe_naming.1 cexCollFS ["t", "x", "n.txt"] ["t", "docs", "n.txt"] 1
     (by decide) (by decide) (by decide) (by decide),
   collision_safe_naming.2 cexCollFS 0 (Move.mk ["t", "x", "n.txt"] ["t", "docs", "n.txt"]) 1
     (by decide) (by decide) (by decide) (by decide) (by decide)⟩

/-! ## Expected outcome of a live organize run

The functions below replay, entry by entry, what the per-file loop produces:
the final path of each entry, the `seen_hashes` map, the move log, the
duplicate list and the category summary.  They are the specification side of
the characterization lemma `organize_spec` below. -/

/-- Destination of a duplicate: `dup_dir / original-filename`. -/
def dupDstOf (target : Path) (f : Path) : Path := (target ++ [DUP_DIR]) ++ [pathName f]

/-- One step of the `seen_hashes` key set. -/
def seenStep (seen : List Nat) (e : Path × FileData) : List Nat :=
  if e.2.hashVal ∈ seen then seen else seen ++ [e.2.hashVal]

/-- The `seen_hashes` key set after a list of entries. -/
def seenAfter (seen : List Nat) : List (Path × FileData) → List Nat
  | [] => seen
  | e :: r => seenAfter (seenStep seen e) r

/-- Where an entry ends up: the duplicates directory when its hash was
already seen, else the planner's destination (which is its own path for an
in-place file). -/
def expFinal (target : Path) (by_date : Bool) (seen : List Nat) (e : Path × FileData) : Path :=
  if e.2.hashVal ∈ seen then dupDstOf target e.1 else plannedDst target by_date e.1 e.2

/-- Final file list (in enumeration order) after processing the entries. -/
def expFiles (target : Path) (by_date : Bool) : List Nat → List (Path × FileData) → List (Path × FileData)
  | _, [] => []
  | seen, e :: r =>
      (expFinal target by_date seen e, e.2) :: expFiles target by_date (seenStep seen e) r

/-- `seen_hashes` as the insertion-ordered (hash, first path) list. -/
def expSeenP : List Nat → List (Path × FileData) → List (Nat × Path)
  | _, [] => []
  | seen, e :: r =>
      (if e.2.hashVal ∈ seen then [] else [(e.2.hashVal, e.1)])
        ++ expSeenP (seenStep seen e) r

/-- The move records appended for one entry. -/
def expLog1 (target : Path) (by_date : Bool) (seen : List Nat) (e : Path × FileData) : List Move :=
  if e.2.hashVal ∈ seen then [⟨e.1, dupDstOf target e.1⟩]
  else if e.1 = plannedDst target by_date e.1 e.2 then []
  else [⟨e.1, plannedDst target by_date e.1 e.2⟩]

/-- The run's move log. -/
def expLog (target : Path) (by_date : Bool) : List Nat → List (Path × FileData) → List Move
  | _, [] => []
  | seen, e :: r => expLog1 target by_date seen e ++ expLog target by_date (seenStep seen e) r

/-- The run's duplicate list. -/
def expDups (target : Path) : List Nat → List (Path × FileData) → List Move
  | _, [] => []
  | seen, e :: r =>
      (if e.2.hashVal ∈ seen then [⟨e.1, dupDstOf target e.1⟩] else [])
        ++ expDups target (seenStep seen e) r

/-- The run's category summary (duplicates contribute nothing). -/
def expSummary : List (String × Nat) → List Nat → List (Path × FileData) → List (String × Nat)
  | s, _, [] => s
  | s, seen, e :: r =>
      expSummary (if e.2.hashVal ∈ seen then s else bump s (detect_category (pathName e.1)))
        (seenStep seen e) r

/-- Superset of every directory the run can create: the duplicates-directory
chain plus each entry's planned destination directory chain. -/
def orgDirBound (target : Path) (by_date : Bool) (L : List (Path × FileData)) : List Path :=
  mkdirChain (target ++ [DUP_DIR])
    ++ L.flatMap (fun e => mkdirChain (parentDir (plannedDst target by_date e.1 e.2)))

/-- Per-entry no-collision condition, relative to the hash set seen before
the entry: a duplicate's duplicates-destination is initially unoccupied; a
non-duplicate is either already in place or has an initially unoccupied
planned destination. -/
def entryFree (fs0 : FS) (target : Path) (by_date : Bool) (seen : List Nat)
    (e : Path × FileData) : Prop :=
  if e.2.hashVal ∈ seen then fs0.pathExists (dupDstOf target e.1) = false
  else (e.1 = plannedDst target by_date e.1 e.2 ∨
        fs0.pathExists (plannedDst target by_date e.1 e.2) = false)

/-- `entryFree` at every position of the snapshot. -/
def posOK (fs0 : FS) (target : Path) (by_date : Bool) : Prop :=
  ∀ i, i < fs0.files.length →
    entryFree fs0 target by_date (seenAfter [] (fs0.files.take i))
      (fs0.files.getD i ⟨[], .bytes 0 "" ""⟩)

/-- All hypotheses of the organize characterization: the tree lies strictly
under the target, no file is excluded by name or location, file paths are
pairwise prefix-free, no file path is a directory or an ancestor of one, the
final paths are pairwise distinct, and every entry is collision-free. -/
def OrganizeOK (fs0 : FS) (target : Path) (by_date : Bool) : Prop :=
  (∀ e ∈ fs0.files, underDir target e.1 = true) ∧
  (∀ e ∈ fs0.files, skipFile (target ++ [DUP_DIR]) e.1 = false) ∧
  List.Pairwise (fun a b => a.1.isPrefixOf b.1 = false ∧ b.1.isPrefixOf a.1 = false) fs0.files ∧
  (∀ d ∈ fs0.dirs, ∀ e ∈ fs0.files, e.1.isPrefixOf d = false) ∧
  ((expFiles target by_date [] fs0.files).map Prod.fst).Nodup ∧
  posOK fs0 target by_date

/-! ### Append and membership lemmas for the expected-outcome functions -/

theorem seenAfter_append (A B : List (Path × FileData)) :
    ∀ seen, seenAfter seen (A ++ B) = seenAfter (seenAfter seen A) B := by
  induction A with
  | nil => intro seen; rfl
  | cons e r ih => intro seen; exact ih (seenStep seen e)

theorem expFiles_append (target : Path) (by_date : Bool) (A B : List (Path × FileData)) :
    ∀ seen, expFiles target by_date seen (A ++ B)
      = expFiles target by_date seen A ++ expFiles target by_date (seenAfter seen A) B := by
  induction A with
  | nil => intro seen; rfl
  | cons e r ih =>
    intro seen
    rw [List.cons_append]
    show _ :: expFiles target by_date (seenStep seen e) (r ++ B) = _
    rw [ih (seenStep seen e)]
    rfl

theorem expSeenP_append (A B : List (Path × FileData)) :
    ∀ seen, expSeenP seen (A ++ B)
      = expSeenP seen A ++ expSeenP (seenAfter seen A) B := by
  induction A with
  | nil => intro seen; rfl
  | cons e r ih =>
    intro seen
    rw [List.cons_append]
    show (if e.2.hashVal ∈ seen then [] else [(e.2.hashVal, e.1)]) ++ expSeenP (seenStep seen e) (r ++ B) = _
    rw [ih (seenStep seen e)]
    simp [expSeenP, seenAfter, List.append_assoc]

theorem expLog_append (target : Path) (by_date : Bool) (A B : List (Path × FileData)) :
    ∀ seen, expLog target by_date seen (A ++ B)
      = expLog target by_date seen A ++ expLog target by_date (seenAfter seen A) B := by
  induction A with
  | nil => intro seen; rfl
  | cons e r ih =>
    intro seen
    rw [List.cons_append]
    show expLog1 target by_date seen e ++ expLog target by_date (seenStep seen e) (r ++ B) = _
    rw [ih (seenStep seen e)]
    simp [expLog, seenAfter, List.append_assoc]

theorem expDups_append (target : Path) (A B : List (Path × FileData)) :
    ∀ seen, expDups target seen (A ++ B)
      = expDups target seen A ++ expDups target (seenAfter seen A) B := by
  induction A with
  | nil => intro seen; rfl
  | cons e r ih =>
    intro seen
    rw [List.cons_append]
    show (if e.2.hashVal ∈ seen then [⟨e.1, dupDstOf target e.1⟩] else []) ++ expDups target (seenStep seen e) (r ++ B) = _
    rw [ih (seenStep seen e)]
    simp [expDups, seenAfter, List.append_assoc]

theorem expSummary_append (A B : List (Path × FileData)) :
    ∀ s seen, expSummary s seen (A ++ B)
      = expSummary (expSummary s seen A) (seenAfter seen A) B := by
  induction A with
  | nil => intro s seen; rfl
  | cons e r ih =>
    intro s seen
    rw [List.cons_append]
    exact ih _ (seenStep seen e)

theorem map_fst_expSeenP (A : List (Path × FileData)) :
    ∀ seen, seen ++ (expSeenP seen A).map Prod.fst = seenAfter seen A := by
  induction A with
  | nil => intro seen; simp [expSeenP, seenAfter]
  | cons e r ih =>
    intro seen
    show seen ++ ((if e.2.hashVal ∈ seen then [] else [(e.2.hashVal, e.1)])
        ++ expSeenP (seenStep seen e) r).map Prod.fst = seenAfter (seenStep seen e) r
    rw [← ih (seenStep seen e)]
    unfold seenStep
    split
    · simp
    · simp

theorem mem_expFiles {target : Path} {by_date : Bool} {x : Path × FileData}
    {A : List (Path × FileData)} :
    ∀ {seen}, x ∈ expFiles target by_date seen A →
      ∃ A1 p A2, A = A1 ++ p :: A2 ∧
        x = (expFinal target by_date (seenAfter seen A1) p, p.2) := by
  induction A with
  | nil => intro seen h; simp [expFiles] at h
  | cons e r ih =>
    intro seen h
    rw [show expFiles target by_date seen (e :: r)
          = (expFinal target by_date seen e, e.2) :: expFiles target by_date (seenStep seen e) r
        from rfl] at h
    rcases List.mem_cons.mp h with h | h
    · exact ⟨[], e, r, rfl, h⟩
    · obtain ⟨A1, p, A2, hA, hx⟩ := ih h
      exact ⟨e :: A1, p, A2, by rw [hA]; rfl, hx⟩

theorem posOK_decomp {fs0 : FS} {target : Path} {by_date : Bool}
    (hpos : posOK fs0 target by_date) (P : List (Path × FileData))
    (e : Path × FileData) (R : List (Path × FileData))
    (hL : fs0.files = P ++ e :: R) :
    entryFree fs0 target by_date (seenAfter [] P) e := by
  have hi : P.length < fs0.files.length := by
    rw [hL, List.length_append]
    simp
  have h1 : fs0.files.take P.length = P := by
    rw [hL]
    exact List.take_left P (e :: R)
  have h2 : fs0.files.getD P.length ⟨[], .bytes 0 "" ""⟩ = e := by
    rw [List.getD_eq_getElem?_getD, hL, List.getElem?_append_right (le_refl P.length)]
    simp
  have := hpos P.length hi
  rw [h1, h2] at this
  exact this

theorem map_rename_id (l : List (Path × FileData)) (src dst : Path)
    (h : ∀ x ∈ l, x.1 ≠ src) :
    l.map (fun e => if e.1 = src then (dst, e.2) else e) = l := by
  induction l with
  | nil => rfl
  | cons a r ih =>
    rw [List.map_cons, if_neg (h a (by simp)), ih (fun x hx => h x (List.mem_cons_of_mem a hx))]

theorem FS.pathExists_of_mem (fs : FS) (e : Path × FileData) (h : e ∈ fs.files) :
    fs.pathExists e.1 = true := by
  unfold FS.pathExists FS.isFile
  apply Bool.or_eq_true_iff.mpr
  exact Or.inl (List.any_eq_true.mpr ⟨e, h, by simp⟩)

theorem FS.isFile_eq_false_iff (fs : FS) (p : Path) :
    fs.isFile p = false ↔ ∀ e ∈ fs.files, e.1 ≠ p := by
  unfold FS.isFile
  rw [List.any_eq_false]
  constructor
  · intro h e he
    have := h e he
    simpa using this
  · intro h e he
    simpa using h e he

/-! ### Path geometry of planned destinations and created directories -/

theorem plannedDst_length (target : Path) (by_date : Bool) (f : Path) (d : FileData) :
    (plannedDst target by_date f d).length
      = target.length + (if by_date then 4 else 2) := by
  cases by_date <;> simp [plannedDst, List.length_append]

theorem dupDstOf_length (target : Path) (f : Path) :
    (dupDstOf target f).length = target.length + 2 := by
  simp [dupDstOf, List.length_append]

theorem parentDir_dupDstOf (target : Path) (f : Path) :
    parentDir (dupDstOf target f) = target ++ [DUP_DIR] :=
  List.dropLast_concat

theorem parentDir_plannedDst (target : Path) (by_date : Bool) (f : Path) (d : FileData) :
    parentDir (plannedDst target by_date f d)
      = if by_date then
          target ++ [detect_category (pathName f), d.ymOf.1, d.ymOf.2]
        else target ++ [detect_category (pathName f)] := by
  cases by_date
  · show parentDir (target ++ [detect_category (pathName f), pathName f]) = _
    rw [show target ++ [detect_category (pathName f), pathName f]
          = (target ++ [detect_category (pathName f)]) ++ [pathName f] by simp]
    exact List.dropLast_concat
  · show parentDir (target ++ [detect_category (pathName f), d.ymOf.1, d.ymOf.2, pathName f]) = _
    rw [show target ++ [detect_category (pathName f), d.ymOf.1, d.ymOf.2, pathName f]
          = (target ++ [detect_category (pathName f), d.ymOf.1, d.ymOf.2]) ++ [pathName f] by simp]
    exact List.dropLast_concat

theorem parentDir_plannedDst_length (target : Path) (by_date : Bool) (f : Path) (d : FileData) :
    (parentDir (plannedDst target by_date f d)).length
      = target.length + (if by_date then 3 else 1) := by
  rw [parentDir_plannedDst]
  cases by_date <;> simp [List.length_append]

theorem mem_orgDirBound {x target : Path} {by_date : Bool} {L : List (Path × FileData)}
    (h : x ∈ orgDirBound target by_date L) :
    x <+: target ++ [DUP_DIR] ∨
      ∃ e ∈ L, x <+: parentDir (plannedDst target by_date e.1 e.2) := by
  unfold orgDirBound at h
  rcases List.mem_append.mp h with h | h
  · exact Or.inl ((List.mem_inits _ _).mp h)
  · obtain ⟨e, he, hx⟩ := List.mem_flatMap.mp h
    exact Or.inr ⟨e, he, (List.mem_inits _ _).mp hx⟩

theorem orgDirBound_length {x target : Path} {by_date : Bool} {L : List (Path × FileData)}
    (h : x ∈ orgDirBound target by_date L) :
    x.length ≤ target.length + (if by_date then 3 else 1) := by
  rcases mem_orgDirBound h with h | ⟨e, _, h⟩
  · have := h.length_le
    rw [List.length_append] at this
    cases by_date <;> simp_all <;> omega
  · have := h.length_le
    rw [parentDir_plannedDst_length] at this
    exact this

theorem plannedDst_not_in_orgDirBound (target : Path) (by_date : Bool) (f : Path)
    (d : FileData) (L : List (Path × FileData)) :
    plannedDst target by_date f d ∉ orgDirBound target by_date L := by
  intro h
  have h1 := orgDirBound_length h
  have h2 := plannedDst_length target by_date f d
  rw [h2] at h1
  cases by_date <;> simp_all

theorem dupDstOf_not_in_orgDirBound (target : Path) (by_date : Bool) (f : Path)
    (L : List (Path × FileData)) :
    dupDstOf target f ∉ orgDirBound target by_date L := by
  intro h
  rcases mem_orgDirBound h with h | ⟨e, _, h⟩
  · have := h.length_le
    rw [dupDstOf_length, List.length_append] at this
    simp at this
  · cases hb : by_date
    · rw [hb] at h
      have := h.length_le
      rw [dupDstOf_length, parentDir_plannedDst_length] at this
      simp at this
    · rw [hb] at h
      rw [parentDir_plannedDst] at h
      simp only [if_true] at h
      obtain ⟨s, hs⟩ := h
      rw [show dupDstOf target f ++ s
            = target ++ (DUP_DIR :: pathName f :: s) by simp [dupDstOf]] at hs
      rw [show target ++ [detect_category (pathName e.1), e.2.ymOf.1, e.2.ymOf.2]
            = target ++ (detect_category (pathName e.1) :: [e.2.ymOf.1, e.2.ymOf.2]) from rfl] at hs
      have h3 := List.append_cancel_left hs
      have h4 : DUP_DIR = detect_category (pathName e.1) := by
        injection h3
      exact detect_category_ne_dup (pathName e.1) h4.symm

theorem skipFile_eq_false_iff (dup_dir f : Path) :
    skipFile dup_dir f = false ↔
      (pathName f ≠ LOG_NAME ∧ pathName f ≠ REPORT_NAME ∧
       parentDir f ≠ dup_dir ∧ pathName f ≠ DUP_DIR) := by
  simp [skipFile]
  tauto

theorem ne_of_isPrefixOf_false {a b : Path} (h : a.isPrefixOf b = false) : a ≠ b := by
  intro heq
  subst heq
  rw [(List.isPrefixOf_iff_prefix).mpr (List.prefix_refl a)] at h
  cases h

theorem fileAt_of_prefix_ne (fs : FS) (A : List (Path × FileData)) (e : Path × FileData)
    (R : List (Path × FileData)) (hfs : fs.files = A ++ e :: R)
    (hA : ∀ x ∈ A, x.1 ≠ e.1) :
    fs.fileAt e.1 = some e.2 := by
  unfold FS.fileAt
  rw [hfs, List.find?_append]
  have h1 : A.find? (fun x => x.1 = e.1) = none := by
    rw [List.find?_eq_none]
    intro x hx
    simpa using hA x hx
  rw [h1, List.find?_cons_of_pos _ (by simp)]
  rfl

theorem isFile_eq_false_of_parts (fs : FS) (A B : List (Path × FileData)) (q : Path)
    (hfs : fs.files = A ++ B)
    (hA : ∀ x ∈ A, x.1 ≠ q) (hB : ∀ x ∈ B, x.1 ≠ q) :
    fs.isFile q = false := by
  rw [FS.isFile_eq_false_iff, hfs]
  intro x hx
  rcases List.mem_append.mp hx with h | h
  · exact hA x h
  · exact hB x h

/-! ### The loop invariant of a live organize run -/

/-- After processing prefix `P` (with `R` still untouched on disk), the
state holds exactly the expected components. -/
def OrgInv (fs0 : FS) (target : Path) (by_date : Bool)
    (P R : List (Path × FileData)) (st : OrgState) : Prop :=
  st.fs.files = expFiles target by_date [] P ++ R ∧
  (∀ d, st.fs.isDir d = true →
      fs0.isDir d = true ∨ d ∈ orgDirBound target by_date fs0.files) ∧
  st.seen = expSeenP [] P ∧
  st.moves_log = expLog target by_date [] P ∧
  st.duplicates = expDups target [] P ∧
  st.summary = expSummary [] [] P

theorem ne_orig_of_pathExists_false (fs0 : FS) (q : Path)
    (h : fs0.pathExists q = false) : ∀ g ∈ fs0.files, g.1 ≠ q := by
  unfold FS.pathExists at h
  rcases Bool.or_eq_false_iff.mp h with ⟨h1, _⟩
  exact (FS.isFile_eq_false_iff fs0 q).mp h1

theorem pathExists_mkdirParentSelf (fs : FS) (p q : Path) (hq : q.length = p.length)
    (hp : p ≠ []) : (fs.mkdirAll (parentDir p)).pathExists q = fs.pathExists q := by
  apply FS.pathExists_mkdirAll_longer
  unfold parentDir
  rw [List.length_dropLast]
  have : 1 ≤ p.length := List.length_pos.mpr hp
  omega

theorem expFiles_fst_ne_cur (fs0 : FS) (target : Path) (by_date : Bool)
    (hSkip : ∀ g ∈ fs0.files, skipFile (target ++ [DUP_DIR]) g.1 = false)
    (hPW : List.Pairwise
        (fun a b => a.1.isPrefixOf b.1 = false ∧ b.1.isPrefixOf a.1 = false) fs0.files)
    (hpos : posOK fs0 target by_date)
    (P : List (Path × FileData)) (e : Path × FileData) (R : List (Path × FileData))
    (hL : fs0.files = P ++ e :: R) :
    ∀ x ∈ expFiles target by_date [] P, x.1 ≠ e.1 := by
  intro x hx
  obtain ⟨A1, p, A2, hA, hxval⟩ := mem_expFiles hx
  have hL2 : fs0.files = A1 ++ p :: (A2 ++ e :: R) := by
    rw [hL, hA]; simp
  have hpfree := posOK_decomp hpos A1 p (A2 ++ e :: R) hL2
  have heMem : e ∈ fs0.files := by
    rw [hL]; exact List.mem_append_right _ (List.mem_cons_self _ _)
  have hpe_rel : p.1.isPrefixOf e.1 = false := by
    rw [hL2] at hPW
    rcases List.pairwise_append.mp hPW with ⟨_, hpe, _⟩
    rcases List.pairwise_cons.mp hpe with ⟨hhead, _⟩
    exact (hhead e (List.mem_append_right _ (List.mem_cons_self _ _))).1
  subst hxval
  show expFinal target by_date (seenAfter [] A1) p ≠ e.1
  unfold expFinal
  split
  · intro heq
    have hpar := parentDir_dupDstOf target p.1
    rw [heq] at hpar
    exact ((skipFile_eq_false_iff _ _).mp (hSkip e heMem)).2.2.1 hpar
  · unfold entryFree at hpfree
    rw [if_neg (by assumption)] at hpfree
    rcases hpfree with hEq | hFree
    · rw [← hEq]
      exact ne_of_isPrefixOf_false hpe_rel
    · intro heq
      exact ne_orig_of_pathExists_false fs0 _ hFree e heMem heq.symm

theorem expFinal_not_in_prefix (fs0 : FS) (target : Path) (by_date : Bool)
    (hNodup : ((expFiles target by_date [] fs0.files).map Prod.fst).Nodup)
    (P : List (Path × FileData)) (e : Path × FileData) (R : List (Path × FileData))
    (hL : fs0.files = P ++ e :: R) :
    ∀ x ∈ expFiles target by_date [] P,
      x.1 ≠ expFinal target by_date (seenAfter [] P) e := by
  rw [hL, expFiles_append] at hNodup
  rw [show expFiles target by_date (seenAfter [] P) (e :: R)
        = (expFinal target by_date (seenAfter [] P) e, e.2)
            :: expFiles target by_date (seenStep (seenAfter [] P) e) R from rfl] at hNodup
  rw [List.map_append, List.map_cons] at hNodup
  have hnm : expFinal target by_date (seenAfter [] P) e
      ∉ (expFiles target by_date [] P).map Prod.fst := by
    intro hmem
    have := List.nodup_middle.mp hNodup
    rcases List.nodup_cons.mp this with ⟨hni, _⟩
    exact hni (List.mem_append_left _ hmem)
  intro x hx heq
  exact hnm (heq ▸ List.mem_map_of_mem _ hx)

/-- One step of the fold preserves the invariant, advancing the processed
prefix by the entry just handled. -/
theorem org_step (fs0 : FS) (target : Path) (by_date : Bool)
    (hOK : OrganizeOK fs0 target by_date)
    (P : List (Path × FileData)) (e : Path × FileData) (R : List (Path × FileData))
    (hL : fs0.files = P ++ e :: R)
    (st : OrgState) (hinv : OrgInv fs0 target by_date P (e :: R) st) :
    OrgInv fs0 target by_date (P ++ [e]) R
      (processOne target (target ++ [DUP_DIR]) by_date false st e.1) := by
  obtain ⟨hUnder, hSkip, hPW, hDirs, hNodup, hpos⟩ := hOK
  obtain ⟨hfiles, hdirs, hseen, hlog, hdups, hsum⟩ := hinv
  have heMem : e ∈ fs0.files := by
    rw [hL]; exact List.mem_append_right _ (List.mem_cons_self _ _)
  have hskipe : skipFile (target ++ [DUP_DIR]) e.1 = false := hSkip e heMem
  have hPne := expFiles_fst_ne_cur fs0 target by_date hSkip hPW hpos P e R hL
  have hfeA : st.fs.fileAt e.1 = some e.2 := fileAt_of_prefix_ne st.fs _ e R hfiles hPne
  have hseenMapFst : (expSeenP [] P).map Prod.fst = seenAfter [] P := by
    have := map_fst_expSeenP P []
    simpa using this
  have hanyIff : (st.seen.any (fun s => s.1 = e.2.hashVal) = true)
      ↔ e.2.hashVal ∈ seenAfter [] P := by
    rw [hseen, List.any_eq_true, ← hseenMapFst]
    constructor
    · rintro ⟨x, hx, hxh⟩
      simp only [decide_eq_true_eq] at hxh
      exact hxh ▸ List.mem_map_of_mem _ hx
    · intro hm
      obtain ⟨x, hx, hxh⟩ := List.mem_map.mp hm
      exact ⟨x, hx, by simp [hxh]⟩
  have hfree := posOK_decomp hpos P e R hL
  have hRdistinct : ∀ x ∈ R, x.1 ≠ e.1 := by
    rw [hL] at hPW
    rcases List.pairwise_append.mp hPW with ⟨_, hpe, _⟩
    rcases List.pairwise_cons.mp hpe with ⟨hhead, _⟩
    intro x hx heq
    exact ne_of_isPrefixOf_false (hhead x hx).2 heq
  have hFfinal := expFinal_not_in_prefix fs0 target by_date hNodup P e R hL
  by_cases hdupc : e.2.hashVal ∈ seenAfter [] P
  · -- duplicate branch
    have hany : st.seen.any (fun s => s.1 = e.2.hashVal) = true := hanyIff.mpr hdupc
    have hfinal_eq : expFinal target by_date (seenAfter [] P) e = dupDstOf target e.1 := by
      unfold expFinal; rw [if_pos hdupc]
    have hfree' : fs0.pathExists (dupDstOf target e.1) = false := by
      unfold entryFree at hfree
      rwa [if_pos hdupc] at hfree
    have hnotfile : st.fs.isFile (dupDstOf target e.1) = false := by
      apply isFile_eq_false_of_parts st.fs _ _ _ hfiles
      · intro x hx
        have := hFfinal x hx
        rwa [hfinal_eq] at this
      · intro x hx
        exact ne_orig_of_pathExists_false fs0 _ hfree' x
          (by rw [hL]; exact List.mem_append_right _ hx)
    have hnotdir : st.fs.isDir (dupDstOf target e.1) = false := by
      by_contra h
      rw [Bool.not_eq_false] at h
      rcases hdirs _ h with h2 | h2
      · have h3 : fs0.pathExists (dupDstOf target e.1) = true := by
          unfold FS.pathExists
          rw [h2]
          simp
        rw [h3] at hfree'
        cases hfree'
      · exact dupDstOf_not_in_orgDirBound target by_date e.1 fs0.files h2
    have hnot : st.fs.pathExists (dupDstOf target e.1) = false := by
      unfold FS.pathExists
      rw [hnotfile, hnotdir]
      rfl
    have hmv : move_file st.fs e.1 ((target ++ [DUP_DIR]) ++ [pathName e.1]) false
        = (st.fs.mkdirAll (target ++ [DUP_DIR])).renameFile e.1 (dupDstOf target e.1) := by
      unfold move_file ensure_dir moveDest
      simp only [Bool.false_eq_true, if_false]
      rw [show parentDir ((target ++ [DUP_DIR]) ++ [pathName e.1]) = target ++ [DUP_DIR]
            from List.dropLast_concat]
      rw [show (st.fs.mkdirAll (target ++ [DUP_DIR])).pathExists
              ((target ++ [DUP_DIR]) ++ [pathName e.1])
            = st.fs.pathExists ((target ++ [DUP_DIR]) ++ [pathName e.1]) from
          FS.pathExists_mkdirAll_longer _ _ _ (by simp [List.length_append])]
      rw [show st.fs.pathExists ((target ++ [DUP_DIR]) ++ [pathName e.1]) = false from hnot]
      simp [dupDstOf]
    have hstep : processOne target (target ++ [DUP_DIR]) by_date false st e.1
        = { st with
            fs := (st.fs.mkdirAll (target ++ [DUP_DIR])).renameFile e.1 (dupDstOf target e.1),
            duplicates := st.duplicates ++ [⟨e.1, (target ++ [DUP_DIR]) ++ [pathName e.1]⟩],
            moves_log := st.moves_log ++ [⟨e.1, (target ++ [DUP_DIR]) ++ [pathName e.1]⟩] } := by
      simp only [processOne, hskipe, Bool.false_eq_true, if_false, hfeA, hany, if_true, hmv]
    rw [hstep]
    refine ⟨?_, ?_, ?_, ?_, ?_, ?_⟩
    · show (st.fs.files).map (fun x => if x.1 = e.1 then (dupDstOf target e.1, x.2) else x)
          = expFiles target by_date [] (P ++ [e]) ++ R
      rw [hfiles, List.map_append, List.map_cons,
          map_rename_id _ _ _ hPne, if_pos rfl, map_rename_id _ _ _ hRdistinct,
          expFiles_append]
      rw [show expFiles target by_date (seenAfter [] P) [e]
            = [(expFinal target by_date (seenAfter [] P) e, e.2)] from rfl, hfinal_eq]
      simp
    · intro d hd
      rcases (st.fs.isDir_mkdirAll_iff _ d).mp hd with h2 | h2
      · exact hdirs d h2
      · exact Or.inr (List.mem_append_left _ h2)
    · show st.seen = expSeenP [] (P ++ [e])
      rw [expSeenP_append, hseen]
      rw [show expSeenP (seenAfter [] P) [e]
            = (if e.2.hashVal ∈ seenAfter [] P then [] else [(e.2.hashVal, e.1)]) from by
          simp [expSeenP]]
      rw [if_pos hdupc]
      simp
    · show st.moves_log ++ _ = expLog target by_date [] (P ++ [e])
      rw [expLog_append, hlog]
      rw [show expLog target by_date (seenAfter [] P) [e]
            = expLog1 target by_date (seenAfter [] P) e from by simp [expLog]]
      unfold expLog1
      rw [if_pos hdupc]
      rfl
    · show st.duplicates ++ _ = expDups target [] (P ++ [e])
      rw [expDups_append, hdups]
      rw [show expDups target (seenAfter [] P) [e]
            = (if e.2.hashVal ∈ seenAfter [] P then [⟨e.1, dupDstOf target e.1⟩] else [])
          from by simp [expDups]]
      rw [if_pos hdupc]
      rfl
    · show st.summary = expSummary [] [] (P ++ [e])
      rw [expSummary_append, ← hsum]
      show st.summary = expSummary (if e.2.hashVal ∈ seenAfter [] P then st.summary
          else bump st.summary (detect_category (pathName e.1))) (seenStep (seenAfter [] P) e) []
      rw [if_pos hdupc]
      rfl
  · -- first-seen branch
    have hany : st.seen.any (fun s => s.1 = e.2.hashVal) = false := by
      rw [← Bool.not_eq_true]
      exact fun h => hdupc (hanyIff.mp h)
    have hfinal_eq : expFinal target by_date (seenAfter [] P) e
        = plannedDst target by_date e.1 e.2 := by
      unfold expFinal; rw [if_neg hdupc]
    unfold entryFree at hfree
    rw [if_neg hdupc] at hfree
    by_cases hpl : e.1 = plannedDst target by_date e.1 e.2
    · -- already in place
      have hstep : processOne target (target ++ [DUP_DIR]) by_date false st e.1
          = { st with
              seen := st.seen ++ [(e.2.hashVal, e.1)],
              summary := bump st.summary (detect_category (pathName e.1)) } := by
        simp only [processOne, hskipe, Bool.false_eq_true, if_false, hfeA, hany, if_pos hpl]
      rw [hstep]
      refine ⟨?_, ?_, ?_, ?_, ?_, ?_⟩
      · show st.fs.files = expFiles target by_date [] (P ++ [e]) ++ R
        rw [hfiles, expFiles_append]
        rw [show expFiles target by_date (seenAfter [] P) [e]
              = [(expFinal target by_date (seenAfter [] P) e, e.2)] from rfl,
            hfinal_eq, ← hpl]
        simp
      · exact hdirs
      · show st.seen ++ _ = expSeenP [] (P ++ [e])
        rw [expSeenP_append, hseen]
        rw [show expSeenP (seenAfter [] P) [e]
              = (if e.2.hashVal ∈ seenAfter [] P then [] else [(e.2.hashVal, e.1)]) from by
            simp [expSeenP]]
        rw [if_neg hdupc]
      · show st.moves_log = expLog target by_date [] (P ++ [e])
        rw [expLog_append, hlog]
        rw [show expLog target by_date (seenAfter [] P) [e]
              = expLog1 target by_date (seenAfter [] P) e from by simp [expLog]]
        unfold expLog1
        rw [if_neg hdupc, if_pos hpl]
        simp
      · show st.duplicates = expDups target [] (P ++ [e])
        rw [expDups_append, hdups]
        rw [show expDups target (seenAfter [] P) [e]
              = (if e.2.hashVal ∈ seenAfter [] P then [⟨e.1, dupDstOf target e.1⟩] else [])
            from by simp [expDups]]
        rw [if_neg hdupc]
        simp
      · show bump st.summary _ = expSummary [] [] (P ++ [e])
        rw [expSummary_append, ← hsum]
        show _ = expSummary (if e.2.hashVal ∈ seenAfter [] P then st.summary
            else bump st.summary (detect_category (pathName e.1)))
            (seenStep (seenAfter [] P) e) []
        rw [if_neg hdupc]
        rfl
    · -- genuinely moved
      have hfreeP : fs0.pathExists (plannedDst target by_date e.1 e.2) = false := by
        rcases hfree with h | h
        · exact absurd h hpl
        · exact h
      have hnotfile : st.fs.isFile (plannedDst target by_date e.1 e.2) = false := by
        apply isFile_eq_false_of_parts st.fs _ _ _ hfiles
        · intro x hx
          have := hFfinal x hx
          rwa [hfinal_eq] at this
        · intro x hx
          exact ne_orig_of_pathExists_false fs0 _ hfreeP x
            (by rw [hL]; exact List.mem_append_right _ hx)
      have hnotdir : st.fs.isDir (plannedDst target by_date e.1 e.2) = false := by
        by_contra h
        rw [Bool.not_eq_false] at h
        rcases hdirs _ h with h2 | h2
        · have h3 : fs0.pathExists (plannedDst target by_date e.1 e.2) = true := by
            unfold FS.pathExists
            rw [h2]
            simp
          rw [h3] at hfreeP
          cases hfreeP
        · exact plannedDst_not_in_orgDirBound target by_date e.1 e.2 fs0.files h2
      have hnot : st.fs.pathExists (plannedDst target by_date e.1 e.2) = false := by
        unfold FS.pathExists
        rw [hnotfile, hnotdir]
        rfl
      have hplne : plannedDst target by_date e.1 e.2 ≠ [] := by
        intro h
        have := plannedDst_length target by_date e.1 e.2
        rw [h] at this
        cases by_date <;> simp at this
      have hmv : move_file st.fs e.1 (plannedDst target by_date e.1 e.2) false
          = (st.fs.mkdirAll (parentDir (plannedDst target by_date e.1 e.2))).renameFile
              e.1 (plannedDst target by_date e.1 e.2) := by
        unfold move_file ensure_dir moveDest
        simp only [Bool.false_eq_true, if_false]
        rw [pathExists_mkdirParentSelf st.fs _ _ rfl hplne, hnot]
        simp
      have hstep : processOne target (target ++ [DUP_DIR]) by_date false st e.1
          = { st with
              fs := (st.fs.mkdirAll
                  (parentDir (plannedDst target by_date e.1 e.2))).renameFile
                  e.1 (plannedDst target by_date e.1 e.2),
              seen := st.seen ++ [(e.2.hashVal, e.1)],
              summary := bump st.summary (detect_category (pathName e.1)),
              moves_log := st.moves_log ++ [⟨e.1, plannedDst target by_date e.1 e.2⟩] } := by
        simp only [processOne, hskipe, Bool.false_eq_true, if_false, hfeA, hany,
          if_neg hpl, hmv]
      rw [hstep]
      refine ⟨?_, ?_, ?_, ?_, ?_, ?_⟩
      · show (st.fs.files).map
            (fun x => if x.1 = e.1 then (plannedDst target by_date e.1 e.2, x.2) else x)
            = expFiles target by_date [] (P ++ [e]) ++ R
        rw [hfiles, List.map_append, List.map_cons,
            map_rename_id _ _ _ hPne, if_pos rfl, map_rename_id _ _ _ hRdistinct,
            expFiles_append]
        rw [show expFiles target by_date (seenAfter [] P) [e]
              = [(expFinal target by_date (seenAfter [] P) e, e.2)] from rfl, hfinal_eq]
        simp
      · intro d hd
        rcases (st.fs.isDir_mkdirAll_iff _ d).mp hd with h2 | h2
        · exact hdirs d h2
        · refine Or.inr (List.mem_append_right _ ?_)
          exact List.mem_flatMap.mpr ⟨e, heMem, h2⟩
      · show st.seen ++ _ = expSeenP [] (P ++ [e])
        rw [expSeenP_append, hseen]
        rw [show expSeenP (seenAfter [] P) [e]
              = (if e.2.hashVal ∈ seenAfter [] P then [] else [(e.2.hashVal, e.1)]) from by
            simp [expSeenP]]
        rw [if_neg hdupc]
      · show st.moves_log ++ _ = expLog target by_date [] (P ++ [e])
        rw [expLog_append, hlog]
        rw [show expLog target by_date (seenAfter [] P) [e]
              = expLog1 target by_date (seenAfter [] P) e from by simp [expLog]]
        unfold expLog1
        rw [if_neg hdupc, if_neg (fun h => hpl h)]
      · show st.duplicates = expDups target [] (P ++ [e])
        rw [expDups_append, hdups]
        rw [show expDups target (seenAfter [] P) [e]
              = (if e.2.hashVal ∈ seenAfter [] P then [⟨e.1, dupDstOf target e.1⟩] else [])
            from by simp [expDups]]
        rw [if_neg hdupc]
        simp
      · show bump st.summary _ = expSummary [] [] (P ++ [e])
        rw [expSummary_append, ← hsum]
        show _ = expSummary (if e.2.hashVal ∈ seenAfter [] P then st.summary
            else bump st.summary (detect_category (pathName e.1)))
            (seenStep (seenAfter [] P) e) []
        rw [if_neg hdupc]
        rfl

/-- The whole fold establishes the invariant at the full list. -/
theorem org_fold (fs0 : FS) (target : Path) (by_date : Bool)
    (hOK : OrganizeOK fs0 target by_date) :
    ∀ (R P : List (Path × FileData)) (st : OrgState),
      fs0.files = P ++ R → OrgInv fs0 target by_date P R st →
      OrgInv fs0 target by_date fs0.files []
        ((R.map Prod.fst).foldl (processOne target (target ++ [DUP_DIR]) by_date false) st) := by
  intro R
  induction R with
  | nil =>
    intro P st hP hinv
    rw [List.append_nil] at hP
    rw [List.map_nil, List.foldl_nil, hP]
    exact hinv
  | cons e R' ih =>
    intro P st hP hinv
    rw [List.map_cons, List.foldl_cons]
    exact ih (P ++ [e]) _ (by rw [hP]; simp)
      (org_step fs0 target by_date hOK P e R' hP st hinv)

theorem FS.writeFile_files_append (fs : FS) (p : Path) (d : FileData)
    (h : fs.isFile p = false) :
    (fs.writeFile p d).files = fs.files ++ [(p, d)] := by
  unfold FS.writeFile
  rw [if_neg (by simp [h])]

theorem FS.isDir_writeFile (fs : FS) (p : Path) (d : FileData) (q : Path) :
    (fs.writeFile p d).isDir q = fs.isDir q := by
  unfold FS.writeFile FS.isDir
  split <;> rfl

theorem pathName_dupDstOf (target : Path) (f : Path) :
    pathName (dupDstOf target f) = pathName f := by
  unfold dupDstOf pathName
  rw [List.getLast?_concat]
  rfl

theorem pathName_plannedDst (target : Path) (by_date : Bool) (f : Path) (d : FileData) :
    pathName (plannedDst target by_date f d) = pathName f := by
  cases by_date
  · show pathName (target ++ [detect_category (pathName f), pathName f]) = pathName f
    rw [show target ++ [detect_category (pathName f), pathName f]
          = (target ++ [detect_category (pathName f)]) ++ [pathName f] by simp]
    unfold pathName
    rw [List.getLast?_concat]
    rfl
  · show pathName (target ++ [detect_category (pathName f), d.ymOf.1, d.ymOf.2, pathName f])
        = pathName f
    rw [show target ++ [detect_category (pathName f), d.ymOf.1, d.ymOf.2, pathName f]
          = (target ++ [detect_category (pathName f), d.ymOf.1, d.ymOf.2]) ++ [pathName f]
        by simp]
    unfold pathName
    rw [List.getLast?_concat]
    rfl

theorem pathName_concat (target : Path) (n : String) :
    pathName (target ++ [n]) = n := by
  unfold pathName
  rw [List.getLast?_concat]
  rfl

theorem pathName_expFinal (target : Path) (by_date : Bool) (seen : List Nat)
    (e : Path × FileData) :
    pathName (expFinal target by_date seen e) = pathName e.1 := by
  unfold expFinal
  split
  · exact pathName_dupDstOf target e.1
  · exact pathName_plannedDst target by_date e.1 e.2

/-- All final paths keep their file's original name, so none of them is the
log-file or report-file path. -/
theorem expFiles_ne_ctrl (fs0 : FS) (target : Path) (by_date : Bool)
    (hSkip : ∀ g ∈ fs0.files, skipFile (target ++ [DUP_DIR]) g.1 = false)
    (n : String) (hn : n = LOG_NAME ∨ n = REPORT_NAME) :
    ∀ x ∈ expFiles target by_date [] fs0.files, x.1 ≠ target ++ [n] := by
  intro x hx heq
  obtain ⟨A1, p, A2, hA, hxval⟩ := mem_expFiles hx
  have hpMem : p ∈ fs0.files := by rw [hA]; exact List.mem_append_right _ (List.mem_cons_self _ _)
  have h1 : pathName x.1 = pathName p.1 := by
    rw [hxval]
    exact pathName_expFinal target by_date _ p
  rw [heq, pathName_concat] at h1
  have h2 := (skipFile_eq_false_iff _ _).mp (hSkip p hpMem)
  rcases hn with rfl | rfl
  · exact h2.1 h1.symm
  · exact h2.2.1 h1.symm

/-- Characterization of a live `organize` run under the `OrganizeOK`
hypotheses: exit code 0, the expected move log, duplicate list and summary,
and a final filesystem holding every entry at its expected final path with
the log and report appended; every directory is an original one or one of
the run's creatable directory chains. -/
theorem organize_spec (fs0 : FS) (target : Path) (by_date : Bool) (ts : String) (el : Nat)
    (hv : (fs0.pathExists target && fs0.isDir target) = true)
    (hne : ¬ (fs0.files.map Prod.fst).length = 0)
    (hOK : OrganizeOK fs0 target by_date) :
    (organize fs0 target by_date false ts el).exitCode = 0 ∧
    (organize fs0 target by_date false ts el).moves_log
      = expLog target by_date [] fs0.files ∧
    (organize fs0 target by_date false ts el).duplicates
      = expDups target [] fs0.files ∧
    (organize fs0 target by_date false ts el).summary
      = expSummary [] [] fs0.files ∧
    (organize fs0 target by_date false ts el).fs.files
      = expFiles target by_date [] fs0.files
        ++ [(target ++ [LOG_NAME], .logF (expLog target by_date [] fs0.files)),
            (target ++ [REPORT_NAME],
             .reportF ⟨target, expSummary [] [] fs0.files,
                       (expDups target [] fs0.files).length,
                       (expLog target by_date [] fs0.files).length, by_date, ts, el⟩)] ∧
    (∀ d, (organize fs0 target by_date false ts el).fs.isDir d = true →
        fs0.isDir d = true ∨ d ∈ orgDirBound target by_date fs0.files) := by
  have hiter : iter_files fs0 target = fs0.files.map Prod.fst := by
    unfold iter_files
    rw [List.filter_eq_self.mpr hOK.1]
  have hne2 : ¬ (iter_files fs0 target).length = 0 := by
    rw [hiter]; exact hne
  have hinv0 : OrgInv fs0 target by_date [] fs0.files
      ⟨ensure_dir fs0 (target ++ [DUP_DIR]) false, [], [], [], []⟩ := by
    refine ⟨rfl, ?_, rfl, rfl, rfl, rfl⟩
    intro d hd
    have hd2 : (fs0.mkdirAll (target ++ [DUP_DIR])).isDir d = true := hd
    rcases (fs0.isDir_mkdirAll_iff _ d).mp hd2 with h2 | h2
    · exact Or.inl h2
    · exact Or.inr (List.mem_append_left _ h2)
  have hfold := org_fold fs0 target by_date hOK fs0.files [] _ rfl hinv0
  obtain ⟨hfF, hfD, hfS, hfL, hfDup, hfSum⟩ := hfold
  rw [List.append_nil] at hfF
  simp only [organize, hv, if_true, if_neg hne2, Bool.false_eq_true, if_false]
  rw [hiter]
  revert hfF hfD hfS hfL hfDup hfSum
  generalize ((fs0.files.map Prod.fst).foldl
      (processOne target (target ++ [DUP_DIR]) by_date false)
      ⟨ensure_dir fs0 (target ++ [DUP_DIR]) false, [], [], [], []⟩) = stF
  intro hfF hfD hfS hfL hfDup hfSum
  have hnologF : stF.fs.isFile (target ++ [LOG_NAME]) = false := by
    apply isFile_eq_false_of_parts _ _ [] _ (by rw [hfF, List.append_nil])
    · exact expFiles_ne_ctrl fs0 target by_date hOK.2.1 LOG_NAME (Or.inl rfl)
    · intro x hx
      cases hx
  have hnorep : (stF.fs.writeFile (target ++ [LOG_NAME])
      (.logF stF.moves_log)).isFile (target ++ [REPORT_NAME]) = false := by
    rw [FS.isFile_eq_false_iff]
    intro x hx
    rw [FS.writeFile_files_append _ _ _ hnologF] at hx
    rcases List.mem_append.mp hx with h | h
    · rw [hfF] at h
      exact expFiles_ne_ctrl fs0 target by_date hOK.2.1 REPORT_NAME (Or.inr rfl) x h
    · rcases List.mem_singleton.mp h with rfl
      exact log_path_ne_report_path target
  refine ⟨trivial, hfL, hfDup, hfSum, ?_, ?_⟩
  · rw [FS.writeFile_files_append _ _ _ hnorep,
        FS.writeFile_files_append _ _ _ hnologF, hfF, hfL, hfDup, hfSum]
    simp
  · intro d hd
    rw [FS.isDir_writeFile, FS.isDir_writeFile] at hd
    exact hfD d hd

/-! ## Specialization to trees without duplicate content, and the undo run -/

/-- The move log of a run that meets no duplicates: one record per entry not
already in place. -/
def noDupLog (target : Path) (by_date : Bool) (L : List (Path × FileData)) : List Move :=
  L.flatMap (fun e => if e.1 = plannedDst target by_date e.1 e.2 then []
                      else [⟨e.1, plannedDst target by_date e.1 e.2⟩])

theorem mem_seenAfter {h : Nat} {A : List (Path × FileData)} :
    ∀ {seen}, h ∈ seenAfter seen A → h ∈ seen ∨ h ∈ A.map (fun e => e.2.hashVal) := by
  induction A with
  | nil => intro seen hh; exact Or.inl hh
  | cons e r ih =>
    intro seen hh
    rcases ih hh with hh2 | hh2
    · unfold seenStep at hh2
      split at hh2
      · exact Or.inl hh2
      · rcases List.mem_append.mp hh2 with h3 | h3
        · exact Or.inl h3
        · have h4 := List.mem_singleton.mp h3
          subst h4
          exact Or.inr (by rw [List.map_cons]; exact List.mem_cons_self _ _)
    · exact Or.inr (List.mem_cons_of_mem _ hh2)

theorem expFiles_of_nodup_hashes (target : Path) (by_date : Bool) :
    ∀ (L : List (Path × FileData)) (seen : List Nat),
      (∀ e ∈ L, e.2.hashVal ∉ seen) →
      (L.map (fun e => e.2.hashVal)).Nodup →
      expFiles target by_date seen L
        = L.map (fun e => (plannedDst target by_date e.1 e.2, e.2)) := by
  intro L
  induction L with
  | nil => intro seen h1 h2; rfl
  | cons e r ih =>
    intro seen h1 h2
    have hnm : e.2.hashVal ∉ seen := h1 e (List.mem_cons_self _ _)
    show (expFinal target by_date seen e, e.2) :: expFiles target by_date (seenStep seen e) r = _
    rw [List.map_cons]
    rw [List.map_cons] at h2
    rcases List.nodup_cons.mp h2 with ⟨hh, hr⟩
    congr 1
    · unfold expFinal
      rw [if_neg hnm]
    · apply ih (seenStep seen e) _ hr
      intro g hg hmem
      unfold seenStep at hmem
      rw [if_neg hnm] at hmem
      rcases List.mem_append.mp hmem with h3 | h3
      · exact h1 g (List.mem_cons_of_mem _ hg) h3
      · simp at h3
        exact hh (h3 ▸ List.mem_map_of_mem _ hg)

theorem expLog_of_nodup_hashes (target : Path) (by_date : Bool) :
    ∀ (L : List (Path × FileData)) (seen : List Nat),
      (∀ e ∈ L, e.2.hashVal ∉ seen) →
      (L.map (fun e => e.2.hashVal)).Nodup →
      expLog target by_date seen L = noDupLog target by_date L := by
  intro L
  induction L with
  | nil => intro seen h1 h2; rfl
  | cons e r ih =>
    intro seen h1 h2
    have hnm : e.2.hashVal ∉ seen := h1 e (List.mem_cons_self _ _)
    show expLog1 target by_date seen e ++ expLog target by_date (seenStep seen e) r = _
    rw [List.map_cons] at h2
    rcases List.nodup_cons.mp h2 with ⟨hh, hr⟩
    have htail : expLog target by_date (seenStep seen e) r = noDupLog target by_date r := by
      apply ih (seenStep seen e) _ hr
      intro g hg hmem
      unfold seenStep at hmem
      rw [if_neg hnm] at hmem
      rcases List.mem_append.mp hmem with h3 | h3
      · exact h1 g (List.mem_cons_of_mem _ hg) h3
      · simp at h3
        exact hh (h3 ▸ List.mem_map_of_mem _ hg)
    unfold expLog1
    rw [if_neg hnm, htail]
    rfl

theorem expDups_of_nodup_hashes (target : Path) :
    ∀ (L : List (Path × FileData)) (seen : List Nat),
      (∀ e ∈ L, e.2.hashVal ∉ seen) →
      (L.map (fun e => e.2.hashVal)).Nodup →
      expDups target seen L = [] := by
  intro L
  induction L with
  | nil => intro seen h1 h2; rfl
  | cons e r ih =>
    intro seen h1 h2
    have hnm : e.2.hashVal ∉ seen := h1 e (List.mem_cons_self _ _)
    show (if e.2.hashVal ∈ seen then [⟨e.1, dupDstOf target e.1⟩] else [])
        ++ expDups target (seenStep seen e) r = []
    rw [List.map_cons] at h2
    rcases List.nodup_cons.mp h2 with ⟨hh, hr⟩
    rw [if_neg hnm]
    rw [List.nil_append]
    apply ih (seenStep seen e) _ hr
    intro g hg hmem
    unfold seenStep at hmem
    rw [if_neg hnm] at hmem
    rcases List.mem_append.mp hmem with h3 | h3
    · exact h1 g (List.mem_cons_of_mem _ hg) h3
    · simp at h3
      exact hh (h3 ▸ List.mem_map_of_mem _ hg)

/-- Effect of the undo loop on a no-duplicates run: every moved entry is
restored to its exact original path, `reverted` counts the records, and the
only new directories are ancestors of the restore targets.  `pre` are
entries outside the processed sub-list (still in moved form), `post` the
log/report entries. -/
theorem undo_fold (target : Path) (by_date : Bool) :
    ∀ (L pre post : List (Path × FileData)) (fs : FS) (n : Nat),
      fs.files = pre ++ L.map (fun e => (plannedDst target by_date e.1 e.2, e.2)) ++ post →
      (∀ x ∈ pre, ∀ g ∈ L, x.1 ≠ g.1 ∧ x.1 ≠ plannedDst target by_date g.1 g.2) →
      (∀ x ∈ post, ∀ g ∈ L, x.1 ≠ g.1 ∧ x.1 ≠ plannedDst target by_date g.1 g.2) →
      List.Pairwise (fun g g2 =>
          g.1 ≠ g2.1 ∧ g.1 ≠ plannedDst target by_date g2.1 g2.2 ∧
          plannedDst target by_date g.1 g.2 ≠ g2.1 ∧
          plannedDst target by_date g.1 g.2 ≠ plannedDst target by_date g2.1 g2.2) L →
      List.Pairwise (fun g g2 => g.1.isPrefixOf g2.1 = false ∧ g2.1.isPrefixOf g.1 = false) L →
      (∀ g ∈ L, fs.isDir g.1 = false) →
      (∀ g ∈ L, g.1 ≠ []) →
      ((noDupLog target by_date L).foldr (fun m acc => undoOne false acc m) (fs, n)).1.files
          = pre ++ L ++ post ∧
      ((noDupLog target by_date L).foldr (fun m acc => undoOne false acc m) (fs, n)).2
          = n + (noDupLog target by_date L).length ∧
      (∀ p, ((noDupLog target by_date L).foldr (fun m acc => undoOne false acc m) (fs, n)).1.isDir p = true →
          fs.isDir p = true ∨ ∃ g ∈ L, p ∈ mkdirChain (parentDir g.1)) := by
  intro L
  induction L with
  | nil =>
    intro pre post fs n hfs hpre hpost hrel hpfx hdir hne
    refine ⟨by simpa using hfs, by simp [noDupLog], ?_⟩
    intro p hp
    exact Or.inl hp
  | cons e L' ih =>
    intro pre post fs n hfs hpre hpost hrel hpfx hdir hne
    rcases List.pairwise_cons.mp hrel with ⟨hrelE, hrel'⟩
    rcases List.pairwise_cons.mp hpfx with ⟨hpfxE, hpfx'⟩
    have hfs' : fs.files = (pre ++ [(plannedDst target by_date e.1 e.2, e.2)])
        ++ L'.map (fun g => (plannedDst target by_date g.1 g.2, g.2)) ++ post := by
      rw [hfs]; simp
    have hpre' : ∀ x ∈ pre ++ [(plannedDst target by_date e.1 e.2, e.2)], ∀ g ∈ L',
        x.1 ≠ g.1 ∧ x.1 ≠ plannedDst target by_date g.1 g.2 := by
      intro x hx g hg
      rcases List.mem_append.mp hx with h | h
      · exact hpre x h g (List.mem_cons_of_mem _ hg)
      · rcases List.mem_singleton.mp h with rfl
        exact ⟨(hrelE g hg).2.2.1, (hrelE g hg).2.2.2⟩
    have hpost' : ∀ x ∈ post, ∀ g ∈ L',
        x.1 ≠ g.1 ∧ x.1 ≠ plannedDst target by_date g.1 g.2 := by
      intro x hx g hg
      exact hpost x hx g (List.mem_cons_of_mem _ hg)
    have hdir' : ∀ g ∈ L', fs.isDir g.1 = false :=
      fun g hg => hdir g (List.mem_cons_of_mem _ hg)
    have hne' : ∀ g ∈ L', g.1 ≠ [] :=
      fun g hg => hne g (List.mem_cons_of_mem _ hg)
    have hInner := ih (pre ++ [(plannedDst target by_date e.1 e.2, e.2)]) post fs n
      hfs' hpre' hpost' hrel' hpfx' hdir' hne'
    obtain ⟨hIF, hIC, hID⟩ := hInner
    have hsplit : noDupLog target by_date (e :: L')
        = (if e.1 = plannedDst target by_date e.1 e.2 then []
           else [⟨e.1, plannedDst target by_date e.1 e.2⟩]) ++ noDupLog target by_date L' := by
      unfold noDupLog
      rw [List.flatMap_cons]
    by_cases hpl : e.1 = plannedDst target by_date e.1 e.2
    · -- e was already in place: no record, nothing to undo for it
      rw [hsplit, if_pos hpl, List.nil_append]
      have hmvE : (plannedDst target by_date e.1 e.2, e.2) = e := by
        rw [← hpl]
      rw [hmvE] at hIF
      refine ⟨by rw [hIF]; simp, hIC, ?_⟩
      · intro p hp
        rcases hID p hp with h | ⟨g, hg, hgp⟩
        · exact Or.inl h
        · exact Or.inr ⟨g, List.mem_cons_of_mem _ hg, hgp⟩
    · -- e was moved: its record restores it
      rw [hsplit, if_neg hpl, List.singleton_append, List.foldr_cons]
      set acc := (noDupLog target by_date L').foldr (fun m acc => undoOne false acc m) (fs, n) with hacc
      have haccF : acc.1.files = (pre ++ [(plannedDst target by_date e.1 e.2, e.2)]) ++ L' ++ post := hIF
      have hsrcEx : acc.1.pathExists (plannedDst target by_date e.1 e.2) = true := by
        unfold FS.pathExists FS.isFile
        apply Bool.or_eq_true_iff.mpr
        apply Or.inl
        apply List.any_eq_true.mpr
        refine ⟨(plannedDst target by_date e.1 e.2, e.2), ?_, by simp⟩
        rw [haccF]
        exact List.mem_append_left _ (List.mem_append_left _ (List.mem_append_right _ (by simp)))
      have hdstFile : acc.1.isFile e.1 = false := by
        apply isFile_eq_false_of_parts acc.1
          ((pre ++ [(plannedDst target by_date e.1 e.2, e.2)]) ++ L') post e.1 haccF
        · intro x hx
          rcases List.mem_append.mp hx with h | h
          · rcases List.mem_append.mp h with h2 | h2
            · exact (hpre x h2 e (List.mem_cons_self _ _)).1
            · rcases List.mem_singleton.mp h2 with rfl
              exact fun hq => hpl hq.symm
          · intro hq
            exact (ne_of_isPrefixOf_false (hpfxE x h).2) hq
        · intro x hx
          exact (hpost x hx e (List.mem_cons_self _ _)).1
      have hdstDir : acc.1.isDir e.1 = false := by
        rw [← Bool.not_eq_true]
        intro hd
        rcases hID e.1 hd with h | ⟨g, hg, hgp⟩
        · rw [hdir e (List.mem_cons_self _ _)] at h
          cases h
        · have h1 : e.1 <+: parentDir g.1 := (List.mem_inits _ _).mp hgp
          have h2 : e.1 <+: g.1 := h1.trans (List.dropLast_prefix g.1)
          have h3 : e.1.isPrefixOf g.1 = true := List.isPrefixOf_iff_prefix.mpr h2
          rw [(hpfxE g hg).1] at h3
          cases h3
      have hdstExF : acc.1.pathExists e.1 = false := by
        unfold FS.pathExists
        rw [hdstFile, hdstDir]
        rfl
      have hstep : undoOne false acc ⟨e.1, plannedDst target by_date e.1 e.2⟩
          = ((acc.1.mkdirAll (parentDir e.1)).renameFile
              (plannedDst target by_date e.1 e.2) e.1, acc.2 + 1) := by
        show undoOne false (acc.1, acc.2) _ = _
        unfold undoOne
        simp only [hsrcEx, if_true, Bool.false_eq_true, if_false]
        unfold ensure_dir
        simp only [Bool.false_eq_true, if_false]
        unfold undoDest
        rw [show (acc.1.mkdirAll (parentDir e.1)).pathExists e.1 = acc.1.pathExists e.1 from
              pathExists_mkdirParentSelf acc.1 e.1 e.1 rfl (hne e (List.mem_cons_self _ _))]
        rw [hdstExF]
        simp
      rw [hstep]
      refine ⟨?_, ?_, ?_⟩
      · show ((acc.1.mkdirAll (parentDir e.1)).renameFile
            (plannedDst target by_date e.1 e.2) e.1).files = pre ++ e :: L' ++ post
        show (acc.1.files).map
            (fun x => if x.1 = plannedDst target by_date e.1 e.2 then (e.1, x.2) else x)
            = pre ++ e :: L' ++ post
        rw [haccF]
        rw [List.map_append, List.map_append, List.map_append]
        rw [map_rename_id pre _ _ (fun x hx => (hpre x hx e (List.mem_cons_self _ _)).2),
            map_rename_id L' _ _ (fun x hx => (hrelE x hx).2.2.1.symm),
            map_rename_id post _ _ (fun x hx => (hpost x hx e (List.mem_cons_self _ _)).2)]
        rw [show ([(plannedDst target by_date e.1 e.2, e.2)].map
              (fun x => if x.1 = plannedDst target by_date e.1 e.2 then (e.1, x.2) else x))
            = [e] by simp]
        simp
      · show acc.2 + 1
            = n + (Move.mk e.1 (plannedDst target by_date e.1 e.2)
                :: noDupLog target by_date L').length
        rw [hIC, List.length_cons]
        omega
      · intro p hp
        have hp2 : ((acc.1.mkdirAll (parentDir e.1))).isDir p = true := hp
        rcases (acc.1.isDir_mkdirAll_iff _ p).mp hp2 with h | h
        · rcases hID p h with h2 | ⟨g, hg, hgp⟩
          · exact Or.inl h2
          · exact Or.inr ⟨g, List.mem_cons_of_mem _ hg, hgp⟩
        · exact Or.inr ⟨e, List.mem_cons_self _ _, h⟩

theorem map_id_of_mem {α : Type} (l : List α) (f : α → α) (h : ∀ x ∈ l, f x = x) :
    l.map f = l := by
  induction l with
  | nil => rfl
  | cons a r ih =>
    rw [List.map_cons, h a (List.mem_cons_self _ _),
        ih (fun x hx => h x (List.mem_cons_of_mem a hx))]

theorem FS.writeFile_files_replace (fs : FS) (p : Path) (d : FileData)
    (h : fs.isFile p = true) :
    (fs.writeFile p d).files = fs.files.map (fun e => if e.1 = p then (p, d) else e) := by
  unfold FS.writeFile
  rw [if_pos h]

theorem FS.fileAt_of_nodup (fs : FS) (E tl : List (Path × FileData)) (x : Path × FileData)
    (hfs : fs.files = E ++ tl) (hN : (E.map Prod.fst).Nodup) (hx : x ∈ E) :
    fs.fileAt x.1 = some x.2 := by
  obtain ⟨E1, E2, rfl⟩ := List.append_of_mem hx
  apply fileAt_of_prefix_ne fs E1 x (E2 ++ tl) (by rw [hfs]; simp)
  rw [List.map_append, List.map_cons] at hN
  have h2 := List.nodup_middle.mp hN
  rcases List.nodup_cons.mp h2 with ⟨hni, _⟩
  intro y hy heq
  exact hni (List.mem_append_left _ (heq ▸ List.mem_map_of_mem _ hy))

theorem underDir_facts {t p : Path} (h : underDir t p = true) :
    t <+: p ∧ p ≠ t ∧ p ≠ [] := by
  unfold underDir at h
  rcases Bool.and_eq_true_iff.mp h with ⟨h1, h2⟩
  have h3 : t <+: p := List.isPrefixOf_iff_prefix.mp h1
  have h4 : p ≠ t := by simpa using h2
  refine ⟨h3, h4, ?_⟩
  intro hnil
  subst hnil
  have h5 := h3.length_le
  simp at h5
  exact h4 h5.symm

theorem hash_not_seen {L A : List (Path × FileData)} {b : Path × FileData}
    {B : List (Path × FileData)}
    (hHash : (L.map (fun e => e.2.hashVal)).Nodup) (hL : L = A ++ b :: B) :
    b.2.hashVal ∉ seenAfter [] A := by
  intro hmem
  rcases mem_seenAfter hmem with h | h
  · cases h
  · rw [hL, List.map_append, List.map_cons] at hHash
    have h2 := List.nodup_middle.mp hHash
    rcases List.nodup_cons.mp h2 with ⟨hni, _⟩
    exact hni (List.mem_append_left _ h)

theorem nodup_fst_of_pairwise {L : List (Path × FileData)}
    (h : List.Pairwise
        (fun a b => a.1.isPrefixOf b.1 = false ∧ b.1.isPrefixOf a.1 = false) L) :
    (L.map Prod.fst).Nodup := by
  have h2 : List.Pairwise (fun a b : Path × FileData => a.1 ≠ b.1) L :=
    h.imp (fun hab => ne_of_isPrefixOf_false hab.1)
  exact List.pairwise_map.mpr h2

theorem orig_ne_ctrl (fs0 : FS) (target : Path) (by_date : Bool)
    (hSkip : ∀ g ∈ fs0.files, skipFile (target ++ [DUP_DIR]) g.1 = false)
    (n : String) (hn : n = LOG_NAME ∨ n = REPORT_NAME ∨ n = DUP_DIR) :
    ∀ g ∈ fs0.files, g.1 ≠ target ++ [n]
      ∧ plannedDst target by_date g.1 g.2 ≠ target ++ [n] := by
  intro g hg
  have hsk := (skipFile_eq_false_iff _ _).mp (hSkip g hg)
  have hname : pathName g.1 ≠ n := by
    rcases hn with rfl | rfl | rfl
    · exact hsk.1
    · exact hsk.2.1
    · exact hsk.2.2.2
  constructor
  · intro hq
    have h2 := congrArg pathName hq
    rw [pathName_concat] at h2
    exact hname h2
  · intro hq
    have h2 := congrArg pathName hq
    rw [pathName_concat, pathName_plannedDst] at h2
    exact hname h2

theorem isDir_orig_false (fs0 : FS) (target : Path) (by_date : Bool)
    (hOK : OrganizeOK fs0 target by_date)
    (hChain : ∀ g ∈ fs0.files, ∀ g2 ∈ fs0.files,
        g.1.isPrefixOf (parentDir (plannedDst target by_date g2.1 g2.2)) = false)
    (fsr : FS)
    (hDirB : ∀ d, fsr.isDir d = true →
        fs0.isDir d = true ∨ d ∈ orgDirBound target by_date fs0.files) :
    ∀ g ∈ fs0.files, fsr.isDir g.1 = false := by
  intro g hg
  rw [← Bool.not_eq_true]
  intro hd
  rcases hDirB _ hd with h | h
  · unfold FS.isDir at h
    rcases List.any_eq_true.mp h with ⟨d, hdmem, hdq⟩
    simp only [decide_eq_true_eq] at hdq
    subst hdq
    have h2 := hOK.2.2.2.1 g.1 hdmem g hg
    rw [List.isPrefixOf_iff_prefix.mpr (List.prefix_refl g.1)] at h2
    cases h2
  · rcases mem_orgDirBound h with h2 | ⟨g2, hg2, h2⟩
    · obtain ⟨hpre, hneq, hnil⟩ := underDir_facts (hOK.1 g hg)
      have hlen1 : g.1.length ≤ target.length + 1 := by
        have h3 := h2.length_le
        rw [List.length_append] at h3
        simpa using h3
      have hlen2 : target.length ≤ g.1.length := hpre.length_le
      have hne2 : ¬ target.length = g.1.length :=
        fun hEq => hneq (hpre.eq_of_length hEq).symm
      have hgeq : g.1 = target ++ [DUP_DIR] :=
        h2.eq_of_length (by rw [List.length_append]; simp; omega)
      have h4 := ((skipFile_eq_false_iff _ _).mp (hOK.2.1 g hg)).2.2.2
      rw [hgeq, pathName_concat] at h4
      exact h4 rfl
    · have h3 : g.1.isPrefixOf (parentDir (plannedDst target by_date g2.1 g2.2)) = true :=
        List.isPrefixOf_iff_prefix.mpr h2
      rw [hChain g hg g2 hg2] at h3
      cases h3

theorem rel_pairwise (fs0 : FS) (target : Path) (by_date : Bool)
    (hOK : OrganizeOK fs0 target by_date)
    (hHash : (fs0.files.map (fun e => e.2.hashVal)).Nodup) :
    List.Pairwise (fun g g2 =>
        g.1 ≠ g2.1 ∧ g.1 ≠ plannedDst target by_date g2.1 g2.2 ∧
        plannedDst target by_date g.1 g.2 ≠ g2.1 ∧
        plannedDst target by_date g.1 g.2 ≠ plannedDst target by_date g2.1 g2.2)
      fs0.files := by
  have hfreeMem : ∀ g ∈ fs0.files, g.1 = plannedDst target by_date g.1 g.2 ∨
      fs0.pathExists (plannedDst target by_date g.1 g.2) = false := by
    intro g hg
    obtain ⟨A, B, hAB⟩ := List.append_of_mem hg
    have h2 := posOK_decomp hOK.2.2.2.2.2 A g B hAB
    unfold entryFree at h2
    rw [if_neg (hash_not_seen hHash hAB)] at h2
    exact h2
  have hplpw : List.Pairwise (fun g g2 =>
      plannedDst target by_date g.1 g.2 ≠ plannedDst target by_date g2.1 g2.2) fs0.files := by
    have hN := hOK.2.2.2.2.1
    rw [expFiles_of_nodup_hashes target by_date fs0.files []
          (by intro e _ h; cases h) hHash, List.map_map] at hN
    exact List.pairwise_map.mp hN
  have hpfx := hOK.2.2.1
  refine List.Pairwise.imp_of_mem ?_ (hpfx.and hplpw)
  intro a b ha hb hab
  obtain ⟨⟨h1, h2⟩, h3⟩ := hab
  refine ⟨ne_of_isPrefixOf_false h1, ?_, ?_, h3⟩
  · rcases hfreeMem b hb with h4 | h4
    · rw [← h4]
      exact ne_of_isPrefixOf_false h1
    · intro hq
      exact ne_orig_of_pathExists_false fs0 _ h4 a ha hq
  · rcases hfreeMem a ha with h4 | h4
    · rw [← h4]
      exact ne_of_isPrefixOf_false h1
    · intro hq
      exact ne_orig_of_pathExists_false fs0 _ h4 b hb hq.symm

/-- C1 (amended): for a tree of files with pairwise-distinct content in
which additionally no collision renaming can occur — planned destinations
are pairwise distinct and initially unoccupied (`OrganizeOK`), and no source
path lies on another file's destination-directory chain — a live organize
followed by a live undo restores every file to its exact original path, and
the run log afterwards holds an empty move list. -/
theorem organize_then_undo_restores (fs0 : FS) (target : Path) (by_date : Bool)
    (ts : String) (el : Nat)
    (hv : (fs0.pathExists target && fs0.isDir target) = true)
    (hne : ¬ (fs0.files.map Prod.fst).length = 0)
    (hOK : OrganizeOK fs0 target by_date)
    (hHash : (fs0.files.map (fun e => e.2.hashVal)).Nodup)
    (hChain : ∀ g ∈ fs0.files, ∀ g2 ∈ fs0.files,
        g.1.isPrefixOf (parentDir (plannedDst target by_date g2.1 g2.2)) = false) :
    (undo_last (organize fs0 target by_date false ts el).fs target false).fs.files
      = fs0.files
        ++ [(target ++ [LOG_NAME], .logF []),
            (target ++ [REPORT_NAME],
             .reportF ⟨target, expSummary [] [] fs0.files, 0,
                       (noDupLog target by_date fs0.files).length, by_date, ts, el⟩)] ∧
    (∀ e ∈ fs0.files,
      (undo_last (organize fs0 target by_date false ts el).fs target false).fs.fileAt e.1
        = some e.2) ∧
    (undo_last (organize fs0 target by_date false ts el).fs target false).fs.readLog
        (target ++ [LOG_NAME]) = [] := by
  obtain ⟨hE, hL, hD, hS, hF, hDirB⟩ := organize_spec fs0 target by_date ts el hv hne hOK
  have htriv : ∀ e ∈ fs0.files, e.2.hashVal ∉ ([] : List Nat) := by
    intro e _ h
    cases h
  rw [expFiles_of_nodup_hashes target by_date fs0.files [] htriv hHash,
      expLog_of_nodup_hashes target by_date fs0.files [] htriv hHash,
      expDups_of_nodup_hashes target fs0.files [] htriv hHash,
      List.length_nil] at hF
  have hctrlLog := orig_ne_ctrl fs0 target by_date hOK.2.1 LOG_NAME (Or.inl rfl)
  have hctrlRep := orig_ne_ctrl fs0 target by_date hOK.2.1 REPORT_NAME (Or.inr (Or.inl rfl))
  have hmvne : ∀ x ∈ fs0.files.map
      (fun e => (plannedDst target by_date e.1 e.2, e.2)), x.1 ≠ target ++ [LOG_NAME] := by
    intro x hx
    obtain ⟨g, hg, rfl⟩ := List.mem_map.mp hx
    exact (hctrlLog g hg).2
  have hfsLog : (organize fs0 target by_date false ts el).fs.fileAt (target ++ [LOG_NAME])
      = some (.logF (noDupLog target by_date fs0.files)) := by
    apply fileAt_of_prefix_ne _ _ _ _ hF hmvne
  have hlogEx : (organize fs0 target by_date false ts el).fs.pathExists
      (target ++ [LOG_NAME]) = true := by
    unfold FS.pathExists FS.isFile
    apply Bool.or_eq_true_iff.mpr
    apply Or.inl
    apply List.any_eq_true.mpr
    refine ⟨(target ++ [LOG_NAME], .logF (noDupLog target by_date fs0.files)), ?_, by simp⟩
    rw [hF]
    exact List.mem_append_right _ (by simp)
  have hreadMs : (organize fs0 target by_date false ts el).fs.readLog (target ++ [LOG_NAME])
      = noDupLog target by_date fs0.files := by
    unfold FS.readLog
    rw [hfsLog]
  simp only [undo_last, hlogEx, if_true, hreadMs, Bool.false_eq_true, if_false]
  by_cases hms : noDupLog target by_date fs0.files = []
  · rw [hms]
    simp only [List.isEmpty_nil, if_true]
    have hinplace : ∀ g ∈ fs0.files, g.1 = plannedDst target by_date g.1 g.2 := by
      intro g hg
      have h2 := (List.flatMap_eq_nil_iff.mp hms) g hg
      by_contra hq
      rw [if_neg hq] at h2
      cases h2
    have hmvid : fs0.files.map (fun e => (plannedDst target by_date e.1 e.2, e.2))
        = fs0.files := by
      apply map_id_of_mem
      intro x hx
      rw [← hinplace x hx]
    rw [hmvid, hms] at hF
    refine ⟨hF, ?_, ?_⟩
    · intro e he
      exact FS.fileAt_of_nodup _ fs0.files _ e hF (nodup_fst_of_pairwise hOK.2.2.1) he
    · rw [hreadMs, hms]
  · rw [if_neg (by simpa using hms)]
    rw [List.foldl_reverse]
    have hfold := undo_fold target by_date fs0.files []
      [(target ++ [LOG_NAME], .logF (noDupLog target by_date fs0.files)),
       (target ++ [REPORT_NAME],
        .reportF ⟨target, expSummary [] [] fs0.files, 0,
                  (noDupLog target by_date fs0.files).length, by_date, ts, el⟩)]
      (organize fs0 target by_date false ts el).fs 0
      (by rw [hF]; rfl)
      (by intro x hx; cases hx)
      (by
        intro x hx g hg
        rcases List.mem_cons.mp hx with rfl | hx2
        · exact ⟨fun hq => (hctrlLog g hg).1 hq.symm, fun hq => (hctrlLog g hg).2 hq.symm⟩
        · rcases List.mem_singleton.mp hx2 with rfl
          exact ⟨fun hq => (hctrlRep g hg).1 hq.symm, fun hq => (hctrlRep g hg).2 hq.symm⟩)
      (rel_pairwise fs0 target by_date hOK hHash)
      hOK.2.2.1
      (isDir_orig_false fs0 target by_date hOK hChain _ hDirB)
      (fun g hg => (underDir_facts (hOK.1 g hg)).2.2)
    obtain ⟨hUF, hUC, hUD⟩ := hfold
    rw [List.nil_append] at hUF
    have hisf : ((noDupLog target by_date fs0.files).foldr
        (fun m acc => undoOne false acc m)
        ((organize fs0 target by_date false ts el).fs, 0)).1.isFile
          (target ++ [LOG_NAME]) = true := by
      unfold FS.isFile
      apply List.any_eq_true.mpr
      refine ⟨(target ++ [LOG_NAME], .logF (noDupLog target by_date fs0.files)), ?_, by simp⟩
      rw [hUF]
      exact List.mem_append_right _ (by simp)
    have hWF : (((noDupLog target by_date fs0.files).foldr
        (fun m acc => undoOne false acc m)
        ((organize fs0 target by_date false ts el).fs, 0)).1.writeFile
          (target ++ [LOG_NAME]) (.logF [])).files
        = fs0.files
          ++ [(target ++ [LOG_NAME], .logF []),
              (target ++ [REPORT_NAME],
               .reportF ⟨target, expSummary [] [] fs0.files, 0,
                         (noDupLog target by_date fs0.files).length, by_date, ts, el⟩)] := by
      rw [FS.writeFile_files_replace _ _ _ hisf, hUF, List.map_append]
      congr 1
      · apply map_id_of_mem
        intro x hx
        rw [if_neg ((hctrlLog x hx).1)]
      · rw [List.map_cons, List.map_cons, List.map_nil, if_pos rfl,
            if_neg (fun hq => log_path_ne_report_path target hq.symm)]
    refine ⟨hWF, ?_, ?_⟩
    · intro e he
      exact FS.fileAt_of_nodup _ fs0.files _ e hWF (nodup_fst_of_pairwise hOK.2.2.1) he
    · unfold FS.readLog
      rw [FS.fileAt_writeFile_self]

instance decEntryFree (fs0 : FS) (target : Path) (by_date : Bool) (seen : List Nat)
    (e : Path × FileData) : Decidable (entryFree fs0 target by_date seen e) := by
  unfold entryFree
  infer_instance

instance decPosOK (fs0 : FS) (target : Path) (by_date : Bool) :
    Decidable (posOK fs0 target by_date) := by
  unfold posOK
  infer_instance

instance decOrganizeOK (fs0 : FS) (target : Path) (by_date : Bool) :
    Decidable (OrganizeOK fs0 target by_date) := by
  unfold OrganizeOK
  infer_instance

/-- A two-file tree with distinct content, distinct names and free planned
destinations. -/
def cexRoundFS : FS :=
  ⟨[ (["t", "a.txt"], .bytes 1 "2021" "01"),
     (["t", "sub", "b.png"], .bytes 2 "2021" "02") ],
   [[], ["t"], ["t", "sub"]]⟩

/-- C1 witness: on `cexRoundFS`, organize-then-undo restores both files and
empties the log. -/
theorem organize_then_undo_restores_witness :
    (undo_last (organize cexRoundFS ["t"] false false "ts" 0).fs ["t"] false).fs.files
      = cexRoundFS.files
        ++ [(["t"] ++ [LOG_NAME], .logF []),
            (["t"] ++ [REPORT_NAME],
             .reportF ⟨["t"], expSummary [] [] cexRoundFS.files, 0,
                       (noDupLog ["t"] false cexRoundFS.files).length, false, "ts", 0⟩)] ∧
    (∀ e ∈ cexRoundFS.files,
      (undo_last (organize cexRoundFS ["t"] false false "ts" 0).fs ["t"] false).fs.fileAt e.1
        = some e.2) ∧
    (undo_last (organize cexRoundFS ["t"] false false "ts" 0).fs ["t"] false).fs.readLog
        (["t"] ++ [LOG_NAME]) = [] :=
  organize_then_undo_restores cexRoundFS ["t"] false "ts" 0
    (by decide) (by decide) (by decide) (by decide) (by decide)

theorem mem_seenAfter_of_mem {h : Nat} {seen : List Nat} (hm : h ∈ seen) :
    ∀ L : List (Path × FileData), h ∈ seenAfter seen L := by
  intro L
  induction L generalizing seen with
  | nil => exact hm
  | cons e r ih =>
    show h ∈ seenAfter (seenStep seen e) r
    apply ih
    unfold seenStep
    split
    · exact hm
    · exact List.mem_append_left _ hm

theorem expSummary_skip_dup (s : List (String × Nat)) (seen : List Nat)
    (X : List (Path × FileData)) (e : Path × FileData) (Y : List (Path × FileData))
    (hmem : e.2.hashVal ∈ seenAfter seen X) :
    expSummary s seen (X ++ e :: Y) = expSummary s seen (X ++ Y) := by
  rw [expSummary_append, expSummary_append]
  show expSummary
      (if e.2.hashVal ∈ seenAfter seen X then expSummary s seen X
       else bump (expSummary s seen X) (detect_category (pathName e.1)))
      (seenStep (seenAfter seen X) e) Y = _
  rw [if_pos hmem]
  unfold seenStep
  rw [if_pos hmem]

/-- C6 (amended): for files `a` and `b` with byte-identical content and
distinct names, where `a` is the FIRST file in enumeration order carrying
that content and the run is collision-free (`OrganizeOK`), a live organize
places `a` at its planned category destination and `b` in the duplicates
subdirectory under its original filename, records `b` as a duplicate, and
computes the category summary exactly as for the tree without `b` (so `b`
is neither classified nor counted). -/
theorem duplicate_pair_placement (fs0 : FS) (target : Path) (by_date : Bool)
    (ts : String) (el : Nat)
    (A1 A2 A3 : List (Path × FileData)) (a b : Path × FileData)
    (hv : (fs0.pathExists target && fs0.isDir target) = true)
    (hOK : OrganizeOK fs0 target by_date)
    (hL : fs0.files = A1 ++ a :: (A2 ++ b :: A3))
    (hhash : a.2.hashVal = b.2.hashVal)
    (hname : pathName a.1 ≠ pathName b.1)
    (hfirst : a.2.hashVal ∉ seenAfter [] A1) :
    (organize fs0 target by_date false ts el).fs.fileAt
        (plannedDst target by_date a.1 a.2) = some a.2 ∧
    (organize fs0 target by_date false ts el).fs.fileAt (dupDstOf target b.1) = some b.2 ∧
    Move.mk b.1 (dupDstOf target b.1) ∈ (organize fs0 target by_date false ts el).duplicates ∧
    (organize fs0 target by_date false ts el).summary
      = expSummary [] [] ((A1 ++ a :: A2) ++ A3) := by
  have hne : ¬ (fs0.files.map Prod.fst).length = 0 := by
    rw [hL]
    simp
  obtain ⟨hE, hLg, hD, hS, hF, hDirB⟩ := organize_spec fs0 target by_date ts el hv hne hOK
  have hNod := hOK.2.2.2.2.1
  have hL2 : fs0.files = (A1 ++ a :: A2) ++ b :: A3 := by
    rw [hL]
    simp
  have hbSeen : b.2.hashVal ∈ seenAfter [] (A1 ++ a :: A2) := by
    rw [seenAfter_append]
    show b.2.hashVal ∈ seenAfter (seenStep (seenAfter [] A1) a) A2
    apply mem_seenAfter_of_mem
    unfold seenStep
    rw [if_neg hfirst, ← hhash]
    exact List.mem_append_right _ (List.mem_singleton.mpr rfl)
  have hbFinal : (dupDstOf target b.1, b.2) ∈ expFiles target by_date [] fs0.files := by
    rw [hL2, expFiles_append]
    apply List.mem_append_right
    show (dupDstOf target b.1, b.2)
        ∈ (expFinal target by_date (seenAfter [] (A1 ++ a :: A2)) b, b.2)
          :: expFiles target by_date (seenStep (seenAfter [] (A1 ++ a :: A2)) b) A3
    rw [show expFinal target by_date (seenAfter [] (A1 ++ a :: A2)) b = dupDstOf target b.1
          from by unfold expFinal; rw [if_pos hbSeen]]
    exact List.mem_cons_self _ _
  have haFinal : (plannedDst target by_date a.1 a.2, a.2)
      ∈ expFiles target by_date [] fs0.files := by
    rw [hL, expFiles_append]
    apply List.mem_append_right
    show (plannedDst target by_date a.1 a.2, a.2)
        ∈ (expFinal target by_date (seenAfter [] A1) a, a.2)
          :: expFiles target by_date (seenStep (seenAfter [] A1) a) (A2 ++ b :: A3)
    rw [show expFinal target by_date (seenAfter [] A1) a = plannedDst target by_date a.1 a.2
          from by unfold expFinal; rw [if_neg hfirst]]
    exact List.mem_cons_self _ _
  refine ⟨?_, ?_, ?_, ?_⟩
  · exact FS.fileAt_of_nodup _ _ _ (plannedDst target by_date a.1 a.2, a.2) hF hNod haFinal
  · exact FS.fileAt_of_nodup _ _ _ (dupDstOf target b.1, b.2) hF hNod hbFinal
  · rw [hD, hL2, expDups_append]
    apply List.mem_append_right
    show Move.mk b.1 (dupDstOf target b.1)
        ∈ (if b.2.hashVal ∈ seenAfter [] (A1 ++ a :: A2)
           then [⟨b.1, dupDstOf target b.1⟩] else [])
          ++ expDups target (seenStep (seenAfter [] (A1 ++ a :: A2)) b) A3
    rw [if_pos hbSeen]
    exact List.mem_append_left _ (List.mem_singleton.mpr rfl)
  · rw [hS, hL2]
    exact expSummary_skip_dup [] [] (A1 ++ a :: A2) b A3 hbSeen

/-- The spec's example scenario: `photo.png` and `photo_copy.png` share
their content, `notes.txt` differs. -/
def fs2C6 : FS :=
  ⟨[ (["t", "photo.png"], .bytes 5 "2021" "03"),
     (["t", "photo_copy.png"], .bytes 5 "2021" "06"),
     (["t", "notes.txt"], .bytes 7 "2021" "01") ],
   [[], ["t"]]⟩

/-- C6 witness: the pair (`photo.png`, `photo_copy.png`) of the spec's
example scenario, where `photo.png` is the first file with that content. -/
theorem duplicate_pair_placement_witness :
    (organize fs2C6 ["t"] false false "ts" 0).fs.fileAt
        (plannedDst ["t"] false ["t", "photo.png"] (.bytes 5 "2021" "03"))
      = some (.bytes 5 "2021" "03") ∧
    (organize fs2C6 ["t"] false false "ts" 0).fs.fileAt
        (dupDstOf ["t"] ["t", "photo_copy.png"]) = some (.bytes 5 "2021" "06") ∧
    Move.mk ["t", "photo_copy.png"] (dupDstOf ["t"] ["t", "photo_copy.png"])
      ∈ (organize fs2C6 ["t"] false false "ts" 0).duplicates ∧
    (organize fs2C6 ["t"] false false "ts" 0).summary
      = expSummary [] [] (([] ++ (["t", "photo.png"], FileData.bytes 5 "2021" "03") :: [])
          ++ [(["t", "notes.txt"], FileData.bytes 7 "2021" "01")]) :=
  duplicate_pair_placement fs2C6 ["t"] false "ts" 0
    [] [] [(["t", "notes.txt"], .bytes 7 "2021" "01")]
    (["t", "photo.png"], .bytes 5 "2021" "03")
    (["t", "photo_copy.png"], .bytes 5 "2021" "06")
    (by decide) (by decide) (by decide) (by decide) (by decide) (by decide)

end FileOrg
